import Mathlib

/-!
# Verification of the Napkin formula-evaluation core

A shallow embedding of the formula evaluation and dependency-tracking engine
of the Napkin spreadsheet app (`src/utils/coords.js`, `src/utils/formula.js`,
`src/utils/grid.js`), together with theorems settling the frozen claims.

Modelling conventions:

* JavaScript objects keyed by the canonical coordinate key string `"x,y"` are
  modelled as association lists keyed by the coordinate pair itself
  (`Key := Int × Int`).  The JS `coordKey` string encoding is a bijection
  between coordinate pairs and the key strings actually used, so nothing is
  lost by working with the pairs directly.
* JS strings are modelled as Lean `String`s; character-level operations
  (regular-expression matching, `trim`, `slice`) are carried out on the
  underlying character lists.
* The external `mathjs` expression library and the JS `parseFloat` builtin are
  modelled as a record of two pure functions (`JSLib`); `none` models a thrown
  evaluation error (for `mathEval`) resp. a non-finite number (`parseFloat`).
  A small concrete arithmetic interpreter (`miniJS`) instantiates the record
  for concrete test stores.
* General recursion (the evaluator's reference recursion, the affected-set
  worklist loop) is modelled with an explicit fuel parameter; theorems prove
  the fuel bounds sufficient, which is exactly the termination content of the
  spec's claims.
-/

namespace Napkin

/-- Canonical cell key.  In the source this is the string `"x,y"` produced by
`coordKey`; keys are in bijection with coordinate pairs, so we use the pair. -/
abbrev Key : Type := Int × Int

/-- A cell of the store: `{ x, y, content }` (`src/utils/grid.js`). -/
structure Cell where
  x : Int
  y : Int
  content : String
deriving DecidableEq, Repr

/-- A cell store: a JS object mapping coordinate keys to cells, modelled as an
association list in insertion order (`Object.keys` enumeration order). -/
abbrev Store : Type := List (Key × Cell)

/-- A display-value map / memo: a JS object mapping keys to strings. -/
abbrev Memo : Type := List (Key × String)

/-- Lookup of a key in a JS object modelled as an association list. -/
def lookup? {α : Type} (m : List (Key × α)) (k : Key) : Option α :=
  match m with
  | [] => none
  | (k', v) :: rest => if k' = k then some v else lookup? rest k

/-- JS object assignment `m[k] = v`: overwrite the existing entry in place
(keeping its enumeration position) or append a new entry. -/
def insertKV {α : Type} (m : List (Key × α)) (k : Key) (v : α) : List (Key × α) :=
  match m with
  | [] => [(k, v)]
  | (k', v') :: rest => if k' = k then (k', v) :: rest else (k', v') :: insertKV rest k v

/-! ## Coordinate codec (`src/utils/coords.js`) -/

/-- `GRID_MIN` from `coords.js`: leftmost column index. -/
def GRID_MIN : Int := -14

/-- `GRID_MAX` from `coords.js`: topmost row index (y increases upwards). -/
def GRID_MAX : Int := 15

/-- `coordKey(x, y)`: the canonical map key for a coordinate.  The source
returns the string `"x,y"`; we model keys by the coordinate pair itself
(the encoding is injective). -/
def coordKey (x y : Int) : Key := (x, y)

/-- Character class `[A-Z]`. -/
def isUpperAZ (c : Char) : Bool := 'A' ≤ c && c ≤ 'Z'

/-- Character class `[0-9]`. -/
def isDigit09 (c : Char) : Bool := '0' ≤ c && c ≤ '9'

/-- Character class `[1-9]`. -/
def isDigit19 (c : Char) : Bool := '1' ≤ c && c ≤ '9'

/-- JS whitespace as relevant to `String.prototype.trim` (the characters that
can actually occur in this app's inputs). -/
def isJsWS (c : Char) : Bool := c = ' ' || c = '\t' || c = '\n' || c = '\r'

/-- Model of `String.prototype.trim`: strip leading and trailing whitespace. -/
def jsTrimChars (cs : List Char) : List Char :=
  ((cs.dropWhile isJsWS).reverse.dropWhile isJsWS).reverse

/-- The loop of `xToColumnLetters`: bijective base-26 digits of `n`
(1-indexed), most significant first.  The loop `while (n > 0) { rem = (n-1) %
26; result = chr(65+rem) + result; n = (n-1) / 26 }` is modelled with a fuel
parameter; `fuel = n` always suffices since `(n-1)/26 < n` for `n > 0`. -/
def colLettersGo : Nat → Nat → List Char
  | 0, _ => []
  | _ + 1, 0 => []
  | fuel + 1, n + 1 => colLettersGo fuel (n / 26) ++ [Char.ofNat (65 + n % 26)]

/-- `xToColumnLetters(x)`: `x = 0 → "A"`, `1 → "B"`, …, `26 → "AA"`, … -/
def xToColumnLetters (x : Int) : List Char :=
  colLettersGo (x + 1).toNat (x + 1).toNat

/-- `columnLettersToX(letters)`: fold `n = n*26 + (code(c) - 65 + 1)`,
then return `n - 1`. -/
def columnLettersToX (letters : List Char) : Int :=
  (letters.foldl (fun n c => n * 26 + ((c.toNat : Int) - 65 + 1)) 0) - 1

/-- `parseInt` on a non-empty decimal digit string. -/
def digitsToNat (ds : List Char) : Nat :=
  ds.foldl (fun n c => n * 10 + (c.toNat - 48)) 0

/-- The regular expression `/^([A-Z]+)([1-9][0-9]*)$/` of `cellRefToXY`,
returning the two capture groups on success.  Greedy matching of `[A-Z]+`
loses nothing because the follow set `[1-9]` is disjoint from `[A-Z]`. -/
def refMatchChars (cs : List Char) : Option (List Char × List Char) :=
  let letters := cs.takeWhile isUpperAZ
  let rest := cs.dropWhile isUpperAZ
  if letters = [] then none
  else
    match rest with
    | [] => none
    | d :: ds => if isDigit19 d && ds.all isDigit09 then some (letters, d :: ds) else none

/-- Whether a string matches `/^[A-Z]+[1-9][0-9]*$/` (the A1 reference
grammar named by the spec). -/
def matchesRefChars (cs : List Char) : Bool :=
  (cs.takeWhile isUpperAZ ≠ []) &&
    (match cs.dropWhile isUpperAZ with
     | [] => false
     | d :: ds => isDigit19 d && ds.all isDigit09)

/-- String-level version of `matchesRefChars`. -/
def matchesRef (s : String) : Bool := matchesRefChars s.toList

/-- `xyToCellRef(x, y)`: A1-style label; column letters from
`colIndex = x - GRID_MIN`, row number `GRID_MAX - y + 1`. -/
def xyToCellRef (x y : Int) : String :=
  String.mk (xToColumnLetters (x - GRID_MIN) ++ (toString (GRID_MAX - y + 1)).toList)

/-- `cellRefToXY(ref)`: returns `null` for absent input (`none`), for the
empty string (falsy), for input that is empty after `trim`, and for input
whose trimmed form fails `/^([A-Z]+)([1-9][0-9]*)$/`; otherwise decodes
`x = GRID_MIN + columnLettersToX(letters)`, `y = GRID_MAX - (row - 1)`.
Note: the source performs no bounds check on the decoded coordinates. -/
def cellRefToXY : Option String → Option Key
  | none => none
  | some ref =>
    if ref.toList = [] then none
    else
      let trimmed := jsTrimChars ref.toList
      if trimmed = [] then none
      else
        match refMatchChars trimmed with
        | none => none
        | some (letters, digits) =>
          let row : Int := (digitsToNat digits : Int)
          some (GRID_MIN + columnLettersToX letters, GRID_MAX - (row - 1))

/-- `withinBounds(x, y)`. -/
def withinBounds (x y : Int) : Bool :=
  GRID_MIN ≤ x && x ≤ GRID_MAX && GRID_MIN ≤ y && y ≤ GRID_MAX

/-! ## Reference extractor (`src/utils/formula.js`, `extractRefs`)

The source scans a formula with the global regex `/\b([A-Z]+[1-9][0-9]*)\b/g`
and accumulates matches in a `Set` (JS sets preserve insertion order), then
returns `Array.from(set)`.  Because the pattern is bracketed by word
boundaries, a match must span a full maximal run of word characters
(`[A-Za-z0-9_]`): the characters of the pattern are all word characters, so a
`\b` holds exactly at the two ends of such a run.  The scan is therefore
modelled as: split the input into maximal word-character runs and keep the
runs matching `^[A-Z]+[1-9][0-9]*$`. -/

/-- JS regex word characters `\w = [A-Za-z0-9_]`. -/
def isWordChar (c : Char) : Bool :=
  ('A' ≤ c && c ≤ 'Z') || ('a' ≤ c && c ≤ 'z') || ('0' ≤ c && c ≤ '9') || c = '_'

/-- Maximal runs of word characters, with fuel (each step consumes at least
one character, so fuel equal to the length suffices). -/
def wordRunsGo : Nat → List Char → List (List Char)
  | 0, _ => []
  | _ + 1, [] => []
  | fuel + 1, c :: cs =>
    if isWordChar c then
      (c :: cs.takeWhile isWordChar) :: wordRunsGo fuel (cs.dropWhile isWordChar)
    else
      wordRunsGo fuel cs

/-- Maximal runs of word characters of a string, in order. -/
def wordRuns (cs : List Char) : List (List Char) := wordRunsGo cs.length cs

/-- The successive matches of `/\b([A-Z]+[1-9][0-9]*)\b/g` on a formula body,
in match order, duplicates included. -/
def rawRefTokens (cs : List Char) : List String :=
  ((wordRuns cs).filter matchesRefChars).map (fun run => String.mk run)

/-- JS `Set` accumulation: append if not already present. -/
def rawDedup (tokens : List String) : List String :=
  tokens.foldl (fun acc r => if r ∈ acc then acc else acc ++ [r]) []

/-- `extractRefs(formula)` on the character list of the formula body:
each matched reference once, in first-occurrence order. -/
def extractRefsChars (cs : List Char) : List String :=
  rawDedup (rawRefTokens cs)

/-- `extractRefs(formula)` (`src/utils/formula.js`). -/
def extractRefs (formula : String) : List String :=
  extractRefsChars formula.toList

/-! ## External JS capabilities -/

/-- The two external JS capabilities the evaluator relies on:
`mathEval expr scope` models `String(math.evaluate(expr, scope))` with `none`
for a thrown evaluation error, and `parseFloat s` models
`parseFloat(s)` combined with the `Number.isFinite` test, `none` meaning
"not a finite number".  JS numbers are modelled by `Int`: every general
theorem is parametric in the record and does not depend on the numeric
carrier, and every concrete scenario verified below stays within integer
arithmetic.  `miniJS` is a concrete instance used for concrete stores. -/
structure JSLib where
  mathEval : List Char → List (String × Int) → Option String
  parseFloat : String → Option Int

/-- `FORMULA_CONSTANTS.ERROR_VALUE` (`src/utils/constants.js`). -/
def ERROR_VALUE : String := "#ERROR"

/-- `FORMULA_CONSTANTS.DEFAULT_NUMERIC_VALUE` (`src/utils/constants.js`). -/
def DEFAULT_NUMERIC_VALUE : Int := 0

/-- `String(value).replace(/,/g, '')`: strip comma grouping separators. -/
def stripCommas (s : String) : String :=
  String.mk (s.toList.filter (fun c => c ≠ ','))

/-! ## Evaluator (`src/utils/formula.js`, `getDisplayValueForCell`)

The recursion is modelled with a fuel parameter; `fuelBound` fuel is proved
sufficient (the claim-C3 theorems), because every recursive descent adds a
store key that was not yet in `visiting` to `visiting`.

The JS `visiting` set is a mutable `Set`, but every call returns it in the
state it received it (the only `add` is paired with a `delete` on both the
success and the error exit), so passing the ambient `visiting` down unchanged
to each recursive call models the mutation exactly.  The mutable `memo`
object is threaded through explicitly. -/

/-- One reference of the evaluator's scope-building loop: resolve `ref` via
the codec; unresolvable references contribute the default numeric value;
otherwise recursively evaluate the referenced key (`recur`), parse the
resulting string as a float with comma separators stripped, and fall back to
the default numeric value when the result is not finite.  Returns the numeric
operand bound to `ref` and the updated memo (`none` = out of fuel). -/
def refOperand (env : JSLib) (recur : Key → Memo → List Key → Option (String × Memo))
    (ref : String) (memo : Memo) (visiting : List Key) : Option (Int × Memo) :=
  match cellRefToXY (some ref) with
  | none => some (DEFAULT_NUMERIC_VALUE, memo)
  | some refKey =>
    match recur refKey memo visiting with
    | none => none
    | some (value, memo') =>
      match env.parseFloat (stripCommas value) with
      | some numeric => some (numeric, memo')
      | none => some (DEFAULT_NUMERIC_VALUE, memo')

/-- The scope-building loop (`for (const ref of refs) { … }`): process the
references in order, accumulating the scope bindings and threading the memo.
`none` propagates fuel exhaustion from a recursive call. -/
def evalRefs (env : JSLib) (recur : Key → Memo → List Key → Option (String × Memo)) :
    List String → List (String × Int) → Memo → List Key →
    Option (List (String × Int) × Memo)
  | [], scope, memo, _ => some (scope, memo)
  | ref :: rest, scope, memo, visiting =>
    match refOperand env recur ref memo visiting with
    | none => none
    | some (numeric, memo') => evalRefs env recur rest (scope ++ [(ref, numeric)]) memo' visiting

/-- The body of `getDisplayValueForCell`, parametrised by the recursive
call `recur` used for referenced cells. -/
def evalStep (env : JSLib) (cells : Store)
    (recur : Key → Memo → List Key → Option (String × Memo))
    (key : Key) (memo : Memo) (visiting : List Key) : Option (String × Memo) :=
  match lookup? memo key with
  | some v => some (v, memo)
  | none =>
    match lookup? cells key with
    | none => some ("", insertKV memo key "")
    | some cell =>
      match cell.content.toList with
      | [] => some ("", insertKV memo key "")
      | c :: body =>
        if c = '=' then
          if key ∈ visiting then
            some (ERROR_VALUE, insertKV memo key ERROR_VALUE)
          else
            match evalRefs env recur (extractRefsChars body) [] memo (key :: visiting) with
            | none => none
            | some (scope, memo₁) =>
              match env.mathEval body scope with
              | some result => some (result, insertKV memo₁ key result)
              | none => some (ERROR_VALUE, insertKV memo₁ key ERROR_VALUE)
        else
          some (cell.content, insertKV memo key cell.content)

/-- `getDisplayValueForCell` with explicit fuel: `none` models fuel
exhaustion (never reached with `fuelBound` fuel; see the claim-C3 theorem). -/
def getDVCF (env : JSLib) (cells : Store) : Nat → Key → Memo → List Key → Option (String × Memo)
  | 0, _, _, _ => none
  | fuel + 1, key, memo, visiting =>
    evalStep env cells (getDVCF env cells fuel) key memo visiting

/-- The keys of a store, in enumeration order (`Object.keys`). -/
def keysOf (cells : Store) : List Key := cells.map Prod.fst

/-- Sufficient fuel for any evaluation over `cells`: one more than the number
of distinct store keys (the recursion depth is bounded by the store size). -/
def fuelBound (cells : Store) : Nat := (keysOf cells).dedup.length + 1

/-- `getDisplayValueForCell(cells, key, memo, visiting)`: the total evaluator,
returning the display string and the updated memo.  The default is never used
(claim C3). -/
def getDisplayValueForCell (env : JSLib) (cells : Store) (key : Key)
    (memo : Memo) (visiting : List Key) : String × Memo :=
  (getDVCF env cells (fuelBound cells) key memo visiting).getD ("", memo)

/-- The canonical display value of a cell: evaluation with fresh memo and
visiting set. -/
def cval (env : JSLib) (cells : Store) (key : Key) : String :=
  (getDisplayValueForCell env cells key [] []).1

/-- `computeAllDisplayValues(cells)`: evaluate every store key with a shared
memo and a fresh visiting set, and return the memo. -/
def computeAllDisplayValues (env : JSLib) (cells : Store) : Memo :=
  (keysOf cells).foldl
    (fun memo key => (getDisplayValueForCell env cells key memo []).2) []

/-- Reading a display-value map (the UI reads `displayValues[key] ?? ''`). -/
def displayOf (m : Memo) (k : Key) : String := (lookup? m k).getD ""

/-! ## Dependency graph (`src/utils/formula.js`, `buildDependencyGraph`) -/

/-- The dependency graph: two adjacency maps, each mapping a key to a JS
`Set` of keys (modelled as a duplicate-free list in insertion order). -/
structure DepGraph where
  dependents : List (Key × List Key)
  dependencies : List (Key × List Key)

/-- JS `Set.add`: append if not already a member. -/
def setAdd (l : List Key) (k : Key) : List Key :=
  if k ∈ l then l else l ++ [k]

/-- Add `v` to the set stored under `k`, creating the entry if missing
(`dependents[refKey]` may not exist; `dependencies[key]` always does). -/
def mapAdd (m : List (Key × List Key)) (k v : Key) : List (Key × List Key) :=
  match m with
  | [] => [(k, [v])]
  | (k', l) :: rest => if k' = k then (k', setAdd l v) :: rest else (k', l) :: mapAdd rest k v

/-- The resolved reference keys of a cell: empty unless the content is a
formula; for a formula, the extracted references that the codec resolves,
in order (unresolvable references are skipped). -/
def refKeysOf (cell : Cell) : List Key :=
  match cell.content.toList with
  | [] => []
  | c :: body =>
    if c = '=' then (extractRefsChars body).filterMap (fun ref => cellRefToXY (some ref))
    else []

/-- `buildDependencyGraph(cells)`: initialize empty sets for every store key,
then record every resolved formula reference in both directions. -/
def buildDependencyGraph (cells : Store) : DepGraph :=
  let init : DepGraph :=
    ⟨(keysOf cells).map (fun k => (k, [])), (keysOf cells).map (fun k => (k, []))⟩
  cells.foldl
    (fun g entry =>
      (refKeysOf entry.2).foldl
        (fun g refKey =>
          ⟨mapAdd g.dependents refKey entry.1, mapAdd g.dependencies entry.1 refKey⟩)
        g)
    init

/-- Read an adjacency map, treating a missing entry as the empty set. -/
def lookupSet (m : List (Key × List Key)) (k : Key) : List Key :=
  (lookup? m k).getD []

/-! ## Affected set (`src/utils/formula.js`, `getAffectedCells`) -/

/-- The worklist loop of `getAffectedCells` with explicit fuel.  The JS stack
(`toProcess`, `push`/`pop` at the array end) is modelled with the list head
as the stack top.  Processing one key folds over its dependents, appending
unseen ones to `affected` and pushing them. -/
def affectedLoop (dependents : List (Key × List Key)) :
    Nat → List Key → List Key → Option (List Key)
  | 0, stack, affected => match stack with | [] => some affected | _ => none
  | fuel + 1, stack, affected =>
    match stack with
    | [] => some affected
    | current :: rest =>
      let next := (lookupSet dependents current).foldl
        (fun acc dep =>
          if dep ∈ acc.1 then acc else (acc.1 ++ [dep], dep :: acc.2))
        (affected, rest)
      affectedLoop dependents fuel next.2 next.1

/-- Sufficient fuel for the worklist: the initial stack size plus the total
size of all dependent sets (each key enters the stack at most once after its
first discovery). -/
def affectedFuel (changedKeys : List Key) (dependents : List (Key × List Key)) : Nat :=
  changedKeys.length + (dependents.map (fun e => e.2.length)).sum + 1

/-- `getAffectedCells(changedKeys, { dependents })`: the reflexive closure of
the changed keys under the dependents relation, as an insertion-ordered set.
The default is never used (claim C3). -/
def getAffectedCells (changedKeys : List Key) (g : DepGraph) : List Key :=
  let affected₀ := changedKeys.foldl setAdd []
  let stack₀ := changedKeys.reverse
  (affectedLoop g.dependents (affectedFuel changedKeys g.dependents) stack₀ affected₀).getD affected₀

/-! ## Orchestrator (`src/utils/formula.js`, `computeUpdatedDisplayValues`) -/

/-- `computeUpdatedDisplayValues(cells, previousValues, changedKeys)`:
with no changed keys, fall back to a full recompute; otherwise rebuild the
dependency graph, compute the affected set, and re-evaluate exactly the
affected keys (sharing one memo/visiting pair), overwriting their entries in
a copy of `previousValues`. -/
def computeUpdatedDisplayValues (env : JSLib) (cells : Store)
    (previousValues : Memo) (changedKeys : List Key) : Memo :=
  if changedKeys = [] then computeAllDisplayValues env cells
  else
    let g := buildDependencyGraph cells
    let affectedKeys := getAffectedCells changedKeys g
    (affectedKeys.foldl
      (fun acc key =>
        let r := getDisplayValueForCell env cells key acc.2 []
        (insertKV acc.1 key r.1, r.2))
      (previousValues, [])).1

/-! ## Cell store collaborator (`src/utils/grid.js`) -/

/-- `getCell(cells, x, y)`. -/
def getCell (cells : Store) (x y : Int) : Option Cell :=
  lookup? cells (coordKey x y)

/-- `setCell(cells, x, y, content)`: functional update of the store. -/
def setCell (cells : Store) (x y : Int) (content : String) : Store :=
  insertKV cells (coordKey x y) ⟨x, y, content⟩

/-- `hasCell(cells, x, y)`. -/
def hasCell (cells : Store) (x y : Int) : Bool :=
  (lookup? cells (coordKey x y)).isSome

/-- The four orthogonal neighbour candidates of `expandIfAllowed`,
in source order: top, right, bottom, left. -/
def expandCandidates (x y : Int) : List Key :=
  [(x, y + 1), (x + 1, y), (x, y - 1), (x - 1, y)]

/-- `expandIfAllowed(cells, x, y)`: if any candidate is out of bounds, return
the store unchanged (the source returns early from the checking loop);
otherwise add an empty cell at each candidate that has none. -/
def expandIfAllowed (cells : Store) (x y : Int) : Store :=
  if (expandCandidates x y).all (fun c => withinBounds c.1 c.2) then
    (expandCandidates x y).foldl
      (fun next c => if hasCell next c.1 c.2 then next else setCell next c.1 c.2 "")
      cells
  else cells

/-! ## A concrete expression library instance

A small arithmetic interpreter standing in for the `mathjs` library when
evaluating concrete stores: identifiers bound by the scope, decimal integer
numerals, `+ - *`, exact `/`, unary minus and parentheses.  An unbound
identifier or a syntax error yields `none` (mathjs throws).  Non-integer
arithmetic is outside the modelled fragment and is refused (`none`) rather
than approximated; no verified scenario leaves the integers.  Only the
fragment exercised by the concrete examples needs to agree with mathjs; all
general theorems are proved for an arbitrary `JSLib`. -/

/-- Tokens of the mini expression language. -/
inductive Tok where
  | num (q : Int)
  | id (s : String)
  | plus | minus | star | slash | lparen | rparen
deriving DecidableEq, Repr

/-- Letters (identifier heads). -/
def isAlpha (c : Char) : Bool := ('A' ≤ c && c ≤ 'Z') || ('a' ≤ c && c ≤ 'z')

/-- Identifier continuation characters. -/
def isAlnum (c : Char) : Bool := isAlpha c || isDigit09 c

/-- Tokenizer for the mini expression language (fuelled; fuel equal to the
input length suffices since every step consumes a character). -/
def tokGo : Nat → List Char → Option (List Tok)
  | 0, [] => some []
  | 0, _ :: _ => none
  | _ + 1, [] => some []
  | fuel + 1, c :: cs =>
    if c = ' ' then tokGo fuel cs
    else if c = '+' then (tokGo fuel cs).map (Tok.plus :: ·)
    else if c = '-' then (tokGo fuel cs).map (Tok.minus :: ·)
    else if c = '*' then (tokGo fuel cs).map (Tok.star :: ·)
    else if c = '/' then (tokGo fuel cs).map (Tok.slash :: ·)
    else if c = '(' then (tokGo fuel cs).map (Tok.lparen :: ·)
    else if c = ')' then (tokGo fuel cs).map (Tok.rparen :: ·)
    else if isAlpha c then
      let name := c :: cs.takeWhile isAlnum
      (tokGo fuel (cs.dropWhile isAlnum)).map (Tok.id (String.mk name) :: ·)
    else if isDigit09 c then
      let intPart := c :: cs.takeWhile isDigit09
      match cs.dropWhile isDigit09 with
      | '.' :: _ => none
      | rest => (tokGo fuel rest).map (Tok.num (digitsToNat intPart : Int) :: ·)
    else none

/-- Parsing modes of the mini recursive-descent evaluator: an atom, a
`*`/`/` chain, a `+`/`-` chain, and the two left-associative continuation
modes carrying the accumulated value. -/
inductive PMode where
  | atom | mull | addl
  | mulGo (acc : Int) | addGo (acc : Int)

/-- Fuelled recursive-descent evaluation over the token list, returning the
value and remaining tokens. -/
def pRun (scope : String → Option Int) : Nat → PMode → List Tok → Option (Int × List Tok)
  | 0, _, _ => none
  | fuel + 1, PMode.atom, toks =>
    match toks with
    | Tok.num q :: rest => some (q, rest)
    | Tok.id s :: rest => (scope s).map (·, rest)
    | Tok.minus :: rest => (pRun scope fuel PMode.atom rest).map (fun r => (-r.1, r.2))
    | Tok.lparen :: rest =>
      match pRun scope fuel PMode.addl rest with
      | some (q, Tok.rparen :: rest') => some (q, rest')
      | _ => none
    | _ => none
  | fuel + 1, PMode.mull, toks =>
    match pRun scope fuel PMode.atom toks with
    | some (q, rest) => pRun scope fuel (PMode.mulGo q) rest
    | none => none
  | fuel + 1, PMode.mulGo acc, toks =>
    match toks with
    | Tok.star :: rest =>
      match pRun scope fuel PMode.atom rest with
      | some (q, rest') => pRun scope fuel (PMode.mulGo (acc * q)) rest'
      | none => none
    | Tok.slash :: rest =>
      match pRun scope fuel PMode.atom rest with
      | some (q, rest') =>
        if q = 0 ∨ ¬ q ∣ acc then none
        else pRun scope fuel (PMode.mulGo (acc / q)) rest'
      | none => none
    | _ => some (acc, toks)
  | fuel + 1, PMode.addl, toks =>
    match pRun scope fuel PMode.mull toks with
    | some (q, rest) => pRun scope fuel (PMode.addGo q) rest
    | none => none
  | fuel + 1, PMode.addGo acc, toks =>
    match toks with
    | Tok.plus :: rest =>
      match pRun scope fuel PMode.mull rest with
      | some (q, rest') => pRun scope fuel (PMode.addGo (acc + q)) rest'
      | none => none
    | Tok.minus :: rest =>
      match pRun scope fuel PMode.mull rest with
      | some (q, rest') => pRun scope fuel (PMode.addGo (acc - q)) rest'
      | none => none
    | _ => some (acc, toks)

/-- Stringification of a result (`String(result)`). -/
def intToDisplay (q : Int) : String := toString q

/-- The concrete `mathEval`: tokenize, parse a full additive expression,
require all tokens consumed. -/
def miniMathEval (expr : List Char) (scope : List (String × Int)) : Option String :=
  match tokGo expr.length expr with
  | none => none
  | some toks =>
    match pRun (fun s => (scope.find? (fun e => e.1 = s)).map Prod.snd)
        (4 * toks.length + 8) PMode.addl toks with
    | some (q, []) => some (intToDisplay q)
    | _ => none

/-- Decimal parsing of an unsigned integer numeral prefix, for the
`parseFloat` model: fails when no leading digit exists, refuses a fractional
part (outside the modelled fragment). -/
def miniParseUnsigned (cs : List Char) : Option Int :=
  let intPart := cs.takeWhile isDigit09
  if intPart = [] then none
  else
    match cs.dropWhile isDigit09 with
    | '.' :: _ => none
    | _ => some (digitsToNat intPart : Int)

/-- The concrete `parseFloat` model: optional sign, then a decimal numeral
prefix (trailing garbage ignored, as with JS `parseFloat`); `none` models
`NaN`.  Exponent notation, fractional numbers and non-finite spellings are
not modelled; the concrete examples never produce them. -/
def miniParseFloat (s : String) : Option Int :=
  match s.toList with
  | '-' :: rest => (miniParseUnsigned rest).map Neg.neg
  | '+' :: rest => miniParseUnsigned rest
  | cs => miniParseUnsigned cs

/-- The concrete JS library instance. -/
def miniJS : JSLib where
  mathEval := miniMathEval
  parseFloat := miniParseFloat

/-! ## Specification-side predicates and characterizations

These definitions do not model source code; they state the properties the
claims talk about (store invariant, acyclicity, first-occurrence order,
memo soundness). -/

/-- First-occurrence deduplication, as described by the spec ("ordered set
…, first-occurrence order, each ref unique"): keep the first occurrence of
each element, dropping all later duplicates.  Used to characterize the JS
`Set` accumulation of `extractRefs`. -/
def dedupFirst : List String → List String
  | [] => []
  | x :: xs => x :: dedupFirst (xs.filter (fun y => y ≠ x))
  termination_by l => l.length
  decreasing_by
    exact Nat.lt_succ_of_le (List.length_filter_le _ xs)

/-- The store invariant: every key present is within grid bounds. -/
def StoreInv (cells : Store) : Prop :=
  ∀ e ∈ cells, withinBounds e.1.1 e.1.2 = true

/-- Cell `a`'s content is a formula containing an A1 token that the codec
resolves to key `b` (the edge relation of the dependency graph). -/
def FormulaRefersTo (cells : Store) (a b : Key) : Prop :=
  ∃ c, lookup? cells a = some c ∧ b ∈ refKeysOf c

/-- The formula reference graph of the store is acyclic: the direct-reference
edges admit a strictly decreasing rank.  `acyclic_of_noCircularRefs` derives
this from the natural formulation (no key transitively references itself),
which is what claim C2 assumes. -/
def Acyclic (cells : Store) : Prop :=
  ∃ rank : Key → Nat, ∀ a c b, lookup? cells a = some c → b ∈ refKeysOf c → rank b < rank a

/-- The natural statement of acyclicity: no key reaches itself through one
or more formula-reference edges. -/
def NoCircularRefs (cells : Store) : Prop :=
  ∀ k, ¬ Relation.TransGen (FormulaRefersTo cells) k k

/-- Every entry of the memo agrees with the canonical display value. -/
def MemoSound (env : JSLib) (cells : Store) (memo : Memo) : Prop :=
  ∀ k v, lookup? memo k = some v → v = cval env cells k

/-- `m'` preserves every entry of `m`. -/
def MemoExtends (m m' : Memo) : Prop :=
  ∀ k v, lookup? m k = some v → lookup? m' k = some v

/-- The number of distinct store keys not yet in the visiting set (the
decreasing measure of the evaluator's recursion). -/
def remKeys (cells : Store) (visiting : List Key) : Nat :=
  ((keysOf cells).dedup.filter (fun k => decide (k ∉ visiting))).length

/-- The canonical numeric operand a reference contributes to the scope of a
formula, in an acyclic store: the default value for an unresolvable
reference, otherwise the parsed canonical display value of the referenced
cell (default on a non-finite parse). -/
def canonOperand (env : JSLib) (cells : Store) (ref : String) : Int :=
  match cellRefToXY (some ref) with
  | none => DEFAULT_NUMERIC_VALUE
  | some b =>
    match env.parseFloat (stripCommas (cval env cells b)) with
    | some numeric => numeric
    | none => DEFAULT_NUMERIC_VALUE

/-- The canonical scope of a formula's reference list. -/
def canonScope (env : JSLib) (cells : Store) (refs : List String) : List (String × Int) :=
  refs.map (fun ref => (ref, canonOperand env cells ref))

/-- The total size of the dependent sets not yet discovered by the worklist:
the decreasing measure of `affectedLoop`. -/
def pushBudget (dependents : List (Key × List Key)) (affected : List Key) : Nat :=
  (dependents.map (fun e => (e.2.filter (fun k => decide (k ∉ affected))).length)).sum

/-! # Theorems -/

/-! ## Map lemmas -/

theorem lookup?_insertKV {α : Type} (m : List (Key × α)) (k k' : Key) (v : α) :
    lookup? (insertKV m k v) k' = if k = k' then some v else lookup? m k' := by
  induction m with
  | nil =>
    by_cases h : k = k' <;> simp [insertKV, lookup?, h]
  | cons hd tl ih =>
    obtain ⟨k₀, v₀⟩ := hd
    by_cases h0 : k₀ = k
    · subst h0
      by_cases h : k₀ = k' <;> simp [insertKV, lookup?, h]
    · simp only [insertKV, if_neg h0]
      by_cases h : k₀ = k'
      · subst h
        have : ¬ k = k₀ := fun hh => h0 hh.symm
        simp [lookup?, this]
      · simp [lookup?, h, ih]

/-- Membership of the looked-up key among the map's keys. -/
theorem lookup?_mem_keys {α : Type} {m : List (Key × α)} {k : Key} {v : α}
    (h : lookup? m k = some v) : k ∈ m.map Prod.fst := by
  induction m with
  | nil => simp [lookup?] at h
  | cons hd tl ih =>
    obtain ⟨k₀, v₀⟩ := hd
    by_cases h0 : k₀ = k
    · subst h0; simp
    · simp only [lookup?, if_neg h0] at h
      simpa using Or.inr (ih h)

/-- The looked-up entry is an entry of the list. -/
theorem lookup?_mem {α : Type} {m : List (Key × α)} {k : Key} {v : α}
    (h : lookup? m k = some v) : (k, v) ∈ m := by
  induction m with
  | nil => simp [lookup?] at h
  | cons hd tl ih =>
    obtain ⟨k₀, v₀⟩ := hd
    by_cases h0 : k₀ = k
    · subst h0
      simp only [lookup?, if_pos trivial, Option.some.injEq, eq_self_iff_true] at h
      simp [h]
    · simp only [lookup?, if_neg h0] at h
      exact List.mem_cons_of_mem _ (ih h)

/-- With duplicate-free keys (every JS object), list membership of an entry
coincides with lookup. -/
theorem lookup?_eq_of_nodup {α : Type} {m : List (Key × α)} {k : Key} {v : α}
    (hnd : (m.map Prod.fst).Nodup) (h : (k, v) ∈ m) : lookup? m k = some v := by
  induction m with
  | nil => simp at h
  | cons hd tl ih =>
    obtain ⟨k₀, v₀⟩ := hd
    simp only [List.map_cons, List.nodup_cons] at hnd
    rcases List.mem_cons.mp h with h1 | h1
    · obtain ⟨hk, hv⟩ := Prod.mk.injEq .. ▸ h1
      simp_all [lookup?]
    · have hk : k₀ ≠ k := by
        intro he; subst he
        exact hnd.1 (List.mem_map.mpr ⟨(k₀, v), h1, rfl⟩)
      simp [lookup?, hk, ih hnd.2 h1]

example : cellRefToXY (some "A1") = some (-14, 15) := by decide
example : cellRefToXY (some "Z99") = some (11, -83) := by decide
example : cellRefToXY (some "a1") = none := by decide
example : cellRefToXY (some " A1 ") = some (-14, 15) := by decide
example : xyToCellRef (-14) 15 = "A1" := by decide
example : xyToCellRef 15 (-14) = "AD30" := by decide
example : cellRefToXY (some (xyToCellRef 11 0)) = some (11, 0) := by decide

/-! ## Codec lemmas and claims C4, C6, C7 -/

/-- The full 30×30 in-bounds round trip, checked by evaluation. -/
theorem roundtrip_all :
    ((List.range 30).all (fun a => (List.range 30).all (fun b =>
      cellRefToXY (some (xyToCellRef (GRID_MIN + a) (GRID_MIN + b))) =
        some (GRID_MIN + a, GRID_MIN + b)))) = true := by decide

/-- C4: for every in-bounds coordinate pair, decoding the produced A1-style
reference returns the same pair: `cellRefToXY (xyToCellRef x y) = (x, y)`. -/
theorem C4_coords_roundtrip (x y : Int)
    (hx1 : GRID_MIN ≤ x) (hx2 : x ≤ GRID_MAX) (hy1 : GRID_MIN ≤ y) (hy2 : y ≤ GRID_MAX) :
    cellRefToXY (some (xyToCellRef x y)) = some (x, y) := by
  obtain ⟨a, ha30, hax⟩ : ∃ a : Nat, a < 30 ∧ x = GRID_MIN + a := by
    refine ⟨(x - GRID_MIN).toNat, ?_, ?_⟩ <;> unfold GRID_MIN GRID_MAX at * <;> omega
  obtain ⟨b, hb30, hby⟩ : ∃ b : Nat, b < 30 ∧ y = GRID_MIN + b := by
    refine ⟨(y - GRID_MIN).toNat, ?_, ?_⟩ <;> unfold GRID_MIN GRID_MAX at * <;> omega
  subst hax hby
  have h1 := List.all_eq_true.mp roundtrip_all a (List.mem_range.mpr ha30)
  have h2 := List.all_eq_true.mp h1 b (List.mem_range.mpr hb30)
  exact of_decide_eq_true h2

/-- C4 witness: the round trip at the concrete in-bounds coordinate (11, 0). -/
theorem C4_coords_roundtrip_witness :
    cellRefToXY (some (xyToCellRef 11 0)) = some (11, 0) :=
  C4_coords_roundtrip 11 0 (by decide) (by decide) (by decide) (by decide)

/-- A string matching the grammar succeeds in the capture-group parse. -/
theorem refMatchChars_isSome {cs : List Char} (h : matchesRefChars cs = true) :
    refMatchChars cs = some (cs.takeWhile isUpperAZ, cs.dropWhile isUpperAZ) := by
  unfold matchesRefChars at h
  unfold refMatchChars
  rcases hb : cs.dropWhile isUpperAZ with _ | ⟨d, ds⟩ <;> rw [hb] at h <;>
    simp_all

/-- Conversely, a successful capture-group parse means the grammar matched. -/
theorem matchesRefChars_of_refMatch {cs : List Char} {p : List Char × List Char}
    (h : refMatchChars cs = some p) : matchesRefChars cs = true := by
  unfold refMatchChars at h
  unfold matchesRefChars
  rcases hb : cs.dropWhile isUpperAZ with _ | ⟨d, ds⟩ <;> rw [hb] at h <;>
    by_cases hl : cs.takeWhile isUpperAZ = [] <;> simp_all

/-- An uppercase letter is not JS whitespace. -/
theorem upper_not_ws {c : Char} (h : isUpperAZ c = true) : isJsWS c = false := by
  simp only [isJsWS, Bool.or_eq_false_iff, decide_eq_false_iff_not]
  refine ⟨⟨⟨?_, ?_⟩, ?_⟩, ?_⟩ <;> rintro rfl <;> exact absurd h (by decide)

/-- A digit is not JS whitespace. -/
theorem digit_not_ws {c : Char} (h : isDigit09 c = true) : isJsWS c = false := by
  simp only [isJsWS, Bool.or_eq_false_iff, decide_eq_false_iff_not]
  refine ⟨⟨⟨?_, ?_⟩, ?_⟩, ?_⟩ <;> rintro rfl <;> exact absurd h (by decide)

/-- `[1-9]` is contained in `[0-9]`. -/
theorem digit09_of_digit19 {c : Char} (h : isDigit19 c = true) : isDigit09 c = true := by
  simp only [isDigit19, Bool.and_eq_true, decide_eq_true_eq] at h
  simp only [isDigit09, Bool.and_eq_true, decide_eq_true_eq]
  exact ⟨le_trans (by decide) h.1, h.2⟩

/-- A list with no whitespace is untouched by `dropWhile isJsWS`. -/
theorem dropWhile_ws_eq_self {cs : List Char} (h : ∀ c ∈ cs, isJsWS c = false) :
    cs.dropWhile isJsWS = cs := by
  cases cs with
  | nil => rfl
  | cons c rest =>
    exact List.dropWhile_cons_of_neg (by simp [h c (List.mem_cons_self c rest)])

/-- A list with no whitespace is untouched by the JS `trim`. -/
theorem jsTrimChars_eq_self {cs : List Char} (h : ∀ c ∈ cs, isJsWS c = false) :
    jsTrimChars cs = cs := by
  unfold jsTrimChars
  rw [dropWhile_ws_eq_self h, dropWhile_ws_eq_self (by simpa using h), List.reverse_reverse]

/-- A string matching the reference grammar contains no whitespace. -/
theorem matchesRef_no_ws {cs : List Char} (h : matchesRefChars cs = true) :
    ∀ c ∈ cs, isJsWS c = false := by
  intro c hc
  rw [← List.takeWhile_append_dropWhile isUpperAZ cs] at hc
  rcases List.mem_append.mp hc with hc | hc
  · exact upper_not_ws (List.mem_takeWhile_imp hc)
  · unfold matchesRefChars at h
    rcases hb : cs.dropWhile isUpperAZ with _ | ⟨d, ds⟩ <;> rw [hb] at h hc
    · simp at hc
    · simp only [Bool.and_eq_true] at h
      rcases List.mem_cons.mp hc with rfl | hc
      · exact digit_not_ws (digit09_of_digit19 h.2.1)
      · exact digit_not_ws (List.all_eq_true.mp h.2.2 c hc)

/-- C6 amended: `cellRefToXY` performs no bounds check.  Every string matching
the A1 grammar decodes to a coordinate pair — even one outside the grid
bounds; out-of-bounds detection is left entirely to `withinBounds`. -/
theorem C6_matching_ref_always_decodes (s : String) (h : matchesRef s = true) :
    (cellRefToXY (some s)).isSome = true := by
  unfold matchesRef at h
  have hne : s.toList ≠ [] := by
    intro he
    rw [he] at h
    exact absurd h (by decide)
  have htrim : jsTrimChars s.toList = s.toList := jsTrimChars_eq_self (matchesRef_no_ws h)
  simp only [cellRefToXY]
  rw [if_neg hne, htrim, if_neg hne, refMatchChars_isSome h]
  rfl

/-- C6 counterexample: "Z99" matches the A1 grammar and decodes to the
out-of-bounds coordinate (11, -83), yet `cellRefToXY` does not return null —
refuting the claim that the codec rejects out-of-bounds references. -/
theorem C6_counterexample :
    matchesRef "Z99" = true ∧
    cellRefToXY (some "Z99") = some (11, -83) ∧
    withinBounds 11 (-83) = false ∧
    ¬ cellRefToXY (some "Z99") = none := by decide

/-- C6 witness: the amended theorem applied to the concrete reference "Z99". -/
theorem C6_matching_ref_always_decodes_witness :
    (cellRefToXY (some "Z99")).isSome = true :=
  C6_matching_ref_always_decodes "Z99" (by decide)

/-- C7 amended: `cellRefToXY` never throws (it is a total function into an
option type) and returns null exactly when the input is absent or its
*trimmed* form fails `/^[A-Z]+[1-9][0-9]*$/`; every string whose trimmed form
matches the pattern yields a coordinate pair.  (The unamended claim, which
ignores trimming, is refuted by `C7_counterexample`.) -/
theorem C7_null_exactly_on_malformed :
    cellRefToXY none = none ∧
    ∀ s : String, cellRefToXY (some s) = none ↔ matchesRefChars (jsTrimChars s.toList) = false := by
  refine ⟨rfl, fun s => ?_⟩
  constructor
  · intro h
    by_cases hne : s.toList = []
    · rw [hne]; decide
    · simp only [cellRefToXY] at h
      rw [if_neg hne] at h
      by_cases htr : jsTrimChars s.toList = []
      · rw [htr]; decide
      · rw [if_neg htr] at h
        rcases hm : refMatchChars (jsTrimChars s.toList) with _ | p
        · cases hmm : matchesRefChars (jsTrimChars s.toList)
          · rfl
          · have hsome := refMatchChars_isSome hmm
            rw [hm] at hsome
            exact absurd hsome (by simp)
        · rw [hm] at h
          simp at h
  · intro h
    by_cases hne : s.toList = []
    · simp only [cellRefToXY]
      rw [if_pos hne]
    · simp only [cellRefToXY]
      rw [if_neg hne]
      by_cases htr : jsTrimChars s.toList = []
      · rw [if_pos htr]
      · rw [if_neg htr]
        rcases hm : refMatchChars (jsTrimChars s.toList) with _ | p
        · rfl
        · have htrue := matchesRefChars_of_refMatch hm
          rw [h] at htrue
          exact absurd htrue (by simp)

/-- C7 counterexample: `" A1 "` fails the pattern `/^[A-Z]+[1-9][0-9]*$/`
(whitespace), yet `cellRefToXY` returns a coordinate pair for it, because the
source trims its input before matching — refuting the claim that null is
returned exactly on pattern failure of the input itself. -/
theorem C7_counterexample :
    matchesRef " A1 " = false ∧ cellRefToXY (some " A1 ") = some (-14, 15) := by decide

/-! ## Claim C8: the reference extractor -/

/-- Unfolding lemma: `dedupFirst` on nil. -/
theorem dedupFirst_nil : dedupFirst [] = [] := by
  rw [dedupFirst.eq_def]

/-- Unfolding lemma: `dedupFirst` on cons. -/
theorem dedupFirst_cons (x : String) (xs : List String) :
    dedupFirst (x :: xs) = x :: dedupFirst (xs.filter (fun y => y ≠ x)) := by
  rw [dedupFirst.eq_def]

/-- The JS `Set` fold equals first-occurrence deduplication (generalized to
an arbitrary start accumulator). -/
theorem rawDedup_go (l acc : List String) :
    l.foldl (fun acc r => if r ∈ acc then acc else acc ++ [r]) acc =
      acc ++ dedupFirst (l.filter (fun y => y ∉ acc)) := by
  induction l generalizing acc with
  | nil => simp [dedupFirst_nil]
  | cons x xs ih =>
    by_cases hx : x ∈ acc
    · simp only [List.foldl_cons, if_pos hx]
      rw [ih, List.filter_cons]
      simp [hx]
    · simp only [List.foldl_cons, if_neg hx]
      rw [ih]
      have hcons : (x :: xs).filter (fun y => y ∉ acc) = x :: xs.filter (fun y => y ∉ acc) := by
        rw [List.filter_cons]
        simp [hx]
      rw [hcons, dedupFirst_cons]
      have hfi : (xs.filter (fun y => y ∉ acc ++ [x])) =
          ((xs.filter (fun y => y ∉ acc)).filter (fun y => y ≠ x)) := by
        rw [List.filter_filter]
        refine List.filter_congr (fun a _ => ?_)
        by_cases h1 : a = x <;> by_cases h2 : a ∈ acc <;> simp [h1, h2]
      rw [hfi]
      simp

/-- `rawDedup` is first-occurrence deduplication. -/
theorem rawDedup_eq_dedupFirst (l : List String) : rawDedup l = dedupFirst l := by
  unfold rawDedup
  rw [rawDedup_go]
  simp

/-- `dedupFirst` returns a sublist (keeping relative order). -/
theorem dedupFirst_sublist (l : List String) : List.Sublist (dedupFirst l) l := by
  have H : ∀ n (l : List String), l.length ≤ n → List.Sublist (dedupFirst l) l := by
    intro n
    induction n with
    | zero =>
      intro l hl
      rw [List.length_eq_zero.mp (Nat.le_zero.mp hl), dedupFirst_nil]
    | succ n ih =>
      intro l hl
      cases l with
      | nil => rw [dedupFirst_nil]
      | cons x xs =>
        rw [dedupFirst_cons]
        refine List.Sublist.cons₂ x ?_
        have hle : (xs.filter (fun y => y ≠ x)).length ≤ n :=
          le_trans (List.length_filter_le _ xs) (Nat.le_of_succ_le_succ hl)
        exact (ih _ hle).trans (List.filter_sublist xs)
  exact H l.length l le_rfl

/-- Membership is preserved by `dedupFirst`. -/
theorem mem_dedupFirst (a : String) (l : List String) : a ∈ dedupFirst l ↔ a ∈ l := by
  have H : ∀ n (l : List String), l.length ≤ n → (a ∈ dedupFirst l ↔ a ∈ l) := by
    intro n
    induction n with
    | zero =>
      intro l hl
      rw [List.length_eq_zero.mp (Nat.le_zero.mp hl), dedupFirst_nil]
    | succ n ih =>
      intro l hl
      cases l with
      | nil => rw [dedupFirst_nil]
      | cons x xs =>
        rw [dedupFirst_cons]
        have hle : (xs.filter (fun y => y ≠ x)).length ≤ n :=
          le_trans (List.length_filter_le _ xs) (Nat.le_of_succ_le_succ hl)
        rw [List.mem_cons, List.mem_cons, ih _ hle, List.mem_filter]
        by_cases hax : a = x <;> simp [hax]
  exact H l.length l le_rfl

/-- `dedupFirst` returns each element exactly once. -/
theorem dedupFirst_nodup (l : List String) : (dedupFirst l).Nodup := by
  have H : ∀ n (l : List String), l.length ≤ n → (dedupFirst l).Nodup := by
    intro n
    induction n with
    | zero =>
      intro l hl
      rw [List.length_eq_zero.mp (Nat.le_zero.mp hl), dedupFirst_nil]
      exact List.nodup_nil
    | succ n ih =>
      intro l hl
      cases l with
      | nil => rw [dedupFirst_nil]; exact List.nodup_nil
      | cons x xs =>
        rw [dedupFirst_cons]
        have hle : (xs.filter (fun y => y ≠ x)).length ≤ n :=
          le_trans (List.length_filter_le _ xs) (Nat.le_of_succ_le_succ hl)
        refine List.nodup_cons.mpr ⟨?_, ih _ hle⟩
        intro hmem
        have := (mem_dedupFirst x _).mp hmem
        simp [List.mem_filter] at this
  exact H l.length l le_rfl

/-- C8: `extractRefs` returns each matched A1 token exactly once
(`Nodup`), in first-occurrence order (it equals first-occurrence
deduplication of the raw match sequence and is a sublist of it), returns
only grammar-matching tokens, matches only word-boundary-isolated tokens
(`"aA1"`, `"A1B"`, `"2B2"` yield nothing), and on `"SUM(A1,B2)+A1"` returns
`["A1", "B2"]`. -/
theorem C8_extractRefs :
    extractRefs "SUM(A1,B2)+A1" = ["A1", "B2"] ∧
    extractRefs "aA1+A1B+2B2+B2" = ["B2"] ∧
    (∀ s : String, extractRefs s = dedupFirst (rawRefTokens s.toList)) ∧
    (∀ s : String, (extractRefs s).Nodup) ∧
    (∀ s : String, List.Sublist (extractRefs s) (rawRefTokens s.toList)) ∧
    (∀ s : String, (extractRefs s).all matchesRef = true) := by
  have heq : ∀ s : String, extractRefs s = dedupFirst (rawRefTokens s.toList) :=
    fun s => rawDedup_eq_dedupFirst _
  refine ⟨by decide, by decide, heq, fun s => ?_, fun s => ?_, fun s => ?_⟩
  · rw [heq]; exact dedupFirst_nodup _
  · rw [heq]; exact dedupFirst_sublist _
  · rw [List.all_eq_true]
    intro r hr
    rw [heq, mem_dedupFirst] at hr
    unfold rawRefTokens at hr
    obtain ⟨run, hrun, rfl⟩ := List.mem_map.mp hr
    exact (List.mem_filter.mp hrun).2

/-! ## Claim C10: bounded grid expansion -/

/-- Per-key characterization of the expansion fold: a key among the
candidates ends up with its old cell if present and an empty cell otherwise;
all other keys are untouched. -/
theorem expandFold_lookup (cs : List Key) (st : Store) (k : Key) :
    lookup? (cs.foldl
        (fun next c => if hasCell next c.1 c.2 then next else setCell next c.1 c.2 "") st) k =
      if k ∈ cs then some ((lookup? st k).getD ⟨k.1, k.2, ""⟩) else lookup? st k := by
  induction cs generalizing st with
  | nil => simp
  | cons c cs ih =>
    simp only [List.foldl_cons]
    rw [ih]
    have hck : coordKey c.1 c.2 = c := rfl
    by_cases hkc : k = c
    · subst hkc
      by_cases hhas : hasCell st k.1 k.2
      · obtain ⟨v, hv⟩ := Option.isSome_iff_exists.mp hhas
        rw [if_pos hhas]
        rw [hck] at hv
        by_cases hmem : k ∈ cs <;> simp [hmem, hv]
      · rw [if_neg hhas]
        have hnone : lookup? st k = none := by
          rw [← hck]
          exact Option.not_isSome_iff_eq_none.mp hhas
        have hset : lookup? (setCell st k.1 k.2 "") k = some ⟨k.1, k.2, ""⟩ := by
          unfold setCell
          rw [hck, lookup?_insertKV]
          simp
        by_cases hmem : k ∈ cs <;> simp [hmem, hset, hnone]
    · have hpres : ∀ st' : Store,
          (if hasCell st' c.1 c.2 then st' else setCell st' c.1 c.2 "") = st' ∨
          lookup? (if hasCell st' c.1 c.2 then st' else setCell st' c.1 c.2 "") k =
            lookup? st' k := by
        intro st'
        by_cases hhas : hasCell st' c.1 c.2
        · exact Or.inl (if_pos hhas)
        · refine Or.inr ?_
          rw [if_neg hhas]
          unfold setCell
          rw [hck, lookup?_insertKV, if_neg (fun h => hkc h.symm)]
      have hlk : lookup? (if hasCell st c.1 c.2 then st else setCell st c.1 c.2 "") k =
          lookup? st k := by
        rcases hpres st with h | h
        · rw [h]
        · exact h
      rw [hlk]
      have : (k ∈ c :: cs) ↔ (k ∈ cs) := by simp [hkc]
      by_cases hmem : k ∈ cs <;> simp [hmem, hkc]

/-- C10: for every store and in-bounds coordinate, if any of the four
orthogonal neighbours is out of bounds, `expandIfAllowed` returns the store
unchanged; otherwise each absent neighbour is added with empty content and
every other key — in particular every previously present cell — is
unchanged. -/
theorem C10_expand_all_or_nothing (cells : Store) (x y : Int)
    (_hin : withinBounds x y = true) :
    ((expandCandidates x y).all (fun c => withinBounds c.1 c.2) = false →
      expandIfAllowed cells x y = cells) ∧
    ((expandCandidates x y).all (fun c => withinBounds c.1 c.2) = true →
      (∀ c ∈ expandCandidates x y,
        lookup? (expandIfAllowed cells x y) c =
          some ((lookup? cells c).getD ⟨c.1, c.2, ""⟩)) ∧
      (∀ k : Key, k ∉ expandCandidates x y →
        lookup? (expandIfAllowed cells x y) k = lookup? cells k)) := by
  constructor
  · intro hfail
    unfold expandIfAllowed
    rw [hfail]
    simp
  · intro hok
    unfold expandIfAllowed
    rw [hok]
    simp only [if_pos]
    constructor
    · intro c hc
      rw [expandFold_lookup]
      rw [if_pos hc]
    · intro k hk
      rw [expandFold_lookup]
      rw [if_neg hk]

/-- C10 witness: at the interior cell (0,0) of a one-cell store all four
neighbours are added empty and the original cell is preserved; at the corner
(15,15) the store is returned unchanged. -/
theorem C10_expand_all_or_nothing_witness :
    lookup? (expandIfAllowed [((0, 0), ⟨0, 0, "hi"⟩)] 0 0) (0, 1) = some ⟨0, 1, ""⟩ ∧
    lookup? (expandIfAllowed [((0, 0), ⟨0, 0, "hi"⟩)] 0 0) (0, 0) = some ⟨0, 0, "hi"⟩ ∧
    expandIfAllowed [((15, 15), ⟨15, 15, "hi"⟩)] 15 15 = [((15, 15), ⟨15, 15, "hi"⟩)] := by
  refine ⟨?_, ?_, ?_⟩
  · have h := ((C10_expand_all_or_nothing [((0, 0), ⟨0, 0, "hi"⟩)] 0 0 (by decide)).2
      (by decide)).1 (0, 1) (by decide)
    simpa using h
  · have h := ((C10_expand_all_or_nothing [((0, 0), ⟨0, 0, "hi"⟩)] 0 0 (by decide)).2
      (by decide)).2 (0, 0) (by decide)
    simpa using h
  · exact (C10_expand_all_or_nothing [((15, 15), ⟨15, 15, "hi"⟩)] 15 15 (by decide)).1
      (by decide)

/-! ## Claim C1: circular references (code bug) -/

/-- C1 (code bug): a cell whose formula references itself does **not**
evaluate to the error token.  The cycle branch memoizes `#ERROR` for the
inner recursive call, but the outer frame then parses `"#ERROR"` as a
non-finite number, substitutes 0 for the cyclic operand, evaluates the
formula successfully, and **overwrites** the memo entry with the result:
`{A1: "=A1"}` yields `"0"`, and `{A1: "=B1", B1: "=A1"}` yields `"0"` for
both cells — contradicting the function's own doc comment (`@example …
returns "#ERROR" for circular refs`) and the spec.  Recursion does remain
bounded (no stack overflow), see claim C3. -/
theorem C1_cycle_not_error :
    (getDisplayValueForCell miniJS [((-14, 15), ⟨-14, 15, "=A1"⟩)] (-14, 15) [] []).1 = "0" ∧
    (getDisplayValueForCell miniJS
      [((-14, 15), ⟨-14, 15, "=B1"⟩), ((-13, 15), ⟨-13, 15, "=A1"⟩)] (-14, 15) [] []).1 = "0" ∧
    (getDisplayValueForCell miniJS
      [((-14, 15), ⟨-14, 15, "=B1"⟩), ((-13, 15), ⟨-13, 15, "=A1"⟩)] (-13, 15) [] []).1 = "0" ∧
    ¬ ("0" = ERROR_VALUE) ∧
    displayOf (computeAllDisplayValues miniJS [((-14, 15), ⟨-14, 15, "=A1"⟩)]) (-14, 15) = "0" := by
  decide

/-! ## Claim C5: unresolvable references contribute the default value -/

/-- A key that is out of bounds cannot be present in a store satisfying the
store invariant. -/
theorem storeInv_oob_absent (cells : Store) (k : Key)
    (hinv : StoreInv cells) (hoob : withinBounds k.1 k.2 = false) :
    lookup? cells k = none := by
  rcases hl : lookup? cells k with _ | c
  · rfl
  · have hmem := lookup?_mem hl
    have := hinv (k, c) hmem
    rw [this] at hoob
    cases hoob

/-- C5: a formula reference whose key has no cell in the store — in
particular, by `storeInv_oob_absent`, any reference decoding out of bounds
under the store invariant — contributes the default numeric value 0 as its
operand (the referenced evaluation returns `""`, which does not parse as a
finite number), and contributes no error token; concretely,
`{A1: "=Z99*2"}` evaluates A1 to `"0"`. -/
theorem C5_unresolvable_contributes_default :
    (∀ (env : JSLib) (cells : Store) (fuel : Nat) (ref : String) (k : Key)
        (memo : Memo) (visiting : List Key),
      env.parseFloat "" = none →
      cellRefToXY (some ref) = some k →
      lookup? cells k = none →
      lookup? memo k = none →
      1 ≤ fuel →
      refOperand env (getDVCF env cells fuel) ref memo visiting =
        some (DEFAULT_NUMERIC_VALUE, insertKV memo k "")) ∧
    (∀ (cells : Store) (k : Key), StoreInv cells → withinBounds k.1 k.2 = false →
      lookup? cells k = none) ∧
    (getDisplayValueForCell miniJS [((-14, 15), ⟨-14, 15, "=Z99*2"⟩)] (-14, 15) [] []).1 = "0" := by
  refine ⟨?_, storeInv_oob_absent, by decide⟩
  intro env cells fuel ref k memo visiting hpf hxy hcells hmemo hfuel
  have hsplit : ∃ f, fuel = f + 1 := ⟨fuel - 1, (Nat.sub_add_cancel hfuel).symm⟩
  obtain ⟨f, rfl⟩ := hsplit
  unfold refOperand
  rw [hxy]
  show (match getDVCF env cells (f + 1) k memo visiting with
    | none => none
    | some (value, memo') =>
      match env.parseFloat (stripCommas value) with
      | some numeric => some (numeric, memo')
      | none => some (DEFAULT_NUMERIC_VALUE, memo')) = _
  rw [getDVCF]
  unfold evalStep
  rw [hmemo, hcells]
  have hstrip : stripCommas "" = "" := rfl
  show (match env.parseFloat (stripCommas "") with
    | some numeric => some (numeric, insertKV memo k "")
    | none => some (DEFAULT_NUMERIC_VALUE, insertKV memo k "")) = _
  rw [hstrip, hpf]

/-- C5 witness: the general operand statement applied to the dangling
reference "Z99" over the concrete store `{A1: "=Z99*2"}`, and the store
invariant applied to a concrete in-bounds store and out-of-bounds key. -/
theorem C5_unresolvable_contributes_default_witness :
    refOperand miniJS (getDVCF miniJS [((-14, 15), ⟨-14, 15, "=Z99*2"⟩)] 1) "Z99" [] [(-14, 15)] =
      some (DEFAULT_NUMERIC_VALUE, insertKV [] (11, -83) "") ∧
    lookup? ([((0, 0), ⟨0, 0, "hi"⟩)] : Store) (11, -83) = none := by
  constructor
  · exact C5_unresolvable_contributes_default.1 miniJS _ 1 "Z99" (11, -83) [] [(-14, 15)]
      (by decide) (by decide) (by decide) (by decide) (by decide)
  · refine C5_unresolvable_contributes_default.2.1 [((0, 0), ⟨0, 0, "hi"⟩)] (11, -83)
      ?_ (by decide)
    intro e he
    rw [List.mem_singleton] at he
    subst he
    decide

/-! ## Claim C3: termination and totality

The evaluator's recursion descends only after adding a store key not yet in
`visiting` to `visiting`, so the number of distinct store keys outside
`visiting` strictly decreases; `fuelBound` fuel therefore suffices, for any
fuel at least `fuelBound` with the same result.  The worklist loop of
`getAffectedCells` pushes a key only when it is newly added to the affected
set, so the stack size plus the total undiscovered dependent count strictly
decreases. -/

/-- Filtering out an element of a duplicate-free list shortens it by one. -/
theorem length_filter_ne_of_mem {l : List Key} {a : Key}
    (hnd : l.Nodup) (ha : a ∈ l) :
    (l.filter (fun k => decide (k ≠ a))).length + 1 = l.length := by
  induction l with
  | nil => cases ha
  | cons b bs ih =>
    obtain ⟨hb, hnd'⟩ := List.nodup_cons.mp hnd
    rcases List.mem_cons.mp ha with rfl | ha'
    · have hself : bs.filter (fun k => decide (k ≠ a)) = bs := by
        refine List.filter_eq_self.mpr (fun x hx => ?_)
        simp only [decide_eq_true_eq]
        intro he
        exact hb (he ▸ hx)
      rw [List.filter_cons_of_neg (by simp), hself, List.length_cons]
    · have hba : b ≠ a := fun he => hb (he ▸ ha')
      rw [List.filter_cons_of_pos (by simp [hba]), List.length_cons, List.length_cons,
        ← ih hnd' ha']

/-- Adding a present, unvisited store key to `visiting` decreases the
measure by exactly one. -/
theorem remKeys_cons {cells : Store} {key : Key} {visiting : List Key}
    (hkey : key ∈ keysOf cells) (hv : key ∉ visiting) :
    remKeys cells (key :: visiting) + 1 = remKeys cells visiting := by
  unfold remKeys
  have hstep : (keysOf cells).dedup.filter (fun k => decide (k ∉ key :: visiting)) =
      ((keysOf cells).dedup.filter (fun k => decide (k ∉ visiting))).filter
        (fun k => decide (k ≠ key)) := by
    rw [List.filter_filter]
    refine (List.filter_congr (fun a _ => ?_)).symm
    by_cases h1 : a = key <;> by_cases h2 : a ∈ visiting <;>
      simp [h1, h2, List.mem_cons]
  rw [hstep]
  exact length_filter_ne_of_mem
    (List.Nodup.filter _ (List.nodup_dedup _))
    (List.mem_filter.mpr ⟨List.mem_dedup.mpr hkey, by simp [hv]⟩)

/-- The measure is bounded by the number of distinct store keys. -/
theorem remKeys_lt_fuelBound (cells : Store) (visiting : List Key) :
    remKeys cells visiting < fuelBound cells :=
  Nat.lt_succ_of_le (List.length_filter_le _ _)

/-- Two fuelled recursive calls that agree (and succeed) pointwise make the
scope-building loop agree (and succeed). -/
theorem evalRefs_congr (env : JSLib)
    {r₁ r₂ : Key → Memo → List Key → Option (String × Memo)} {V : List Key}
    (h : ∀ k m, ∃ r, r₁ k m V = some r ∧ r₂ k m V = some r) :
    ∀ (refs : List String) (scope : List (String × Int)) (memo : Memo),
      ∃ p, evalRefs env r₁ refs scope memo V = some p ∧
        evalRefs env r₂ refs scope memo V = some p := by
  intro refs
  induction refs with
  | nil => exact fun scope memo => ⟨(scope, memo), rfl, rfl⟩
  | cons ref rest ih =>
    intro scope memo
    rcases hxy : cellRefToXY (some ref) with _ | b
    · simp only [evalRefs, refOperand, hxy]
      exact ih _ _
    · obtain ⟨⟨value, memo'⟩, h1, h2⟩ := h b memo
      rcases hpf : env.parseFloat (stripCommas value) with _ | numeric
      · simp only [evalRefs, refOperand, hxy, h1, h2, hpf]
        exact ih _ _
      · simp only [evalRefs, refOperand, hxy, h1, h2, hpf]
        exact ih _ _

/-- Two recursive calls that agree (and succeed) pointwise at the extended
visiting set make the evaluator body agree (and succeed). -/
theorem evalStep_congr (env : JSLib) (cells : Store)
    (r₁ r₂ : Key → Memo → List Key → Option (String × Memo))
    (key : Key) (memo : Memo) (V : List Key)
    (h : key ∈ keysOf cells → key ∉ V →
      ∀ k m, ∃ r, r₁ k m (key :: V) = some r ∧ r₂ k m (key :: V) = some r) :
    ∃ r, evalStep env cells r₁ key memo V = some r ∧
      evalStep env cells r₂ key memo V = some r := by
  rcases hm : lookup? memo key with _ | v
  · rcases hc : lookup? cells key with _ | cell
    · refine ⟨("", insertKV memo key ""), ?_, ?_⟩ <;> simp only [evalStep, hm, hc]
    · rcases hcl : cell.content.toList with _ | ⟨c, body⟩
      · refine ⟨("", insertKV memo key ""), ?_, ?_⟩ <;> simp only [evalStep, hm, hc, hcl]
      · by_cases hcf : c = '='
        · subst hcf
          by_cases hkv : key ∈ V
          · refine ⟨(ERROR_VALUE, insertKV memo key ERROR_VALUE), ?_, ?_⟩ <;>
              simp only [evalStep, hm, hc, hcl, hkv, if_pos, if_true]
          · obtain ⟨⟨scope, memo₁⟩, h1, h2⟩ :=
              evalRefs_congr env (h (lookup?_mem_keys hc) hkv) (extractRefsChars body) [] memo
            rcases hev : env.mathEval body scope with _ | result
            · refine ⟨(ERROR_VALUE, insertKV memo₁ key ERROR_VALUE), ?_, ?_⟩ <;>
                simp only [evalStep, hm, hc, hcl, hkv, h1, h2, hev, if_neg, if_true,
                  not_false_iff, if_pos]
            · refine ⟨(result, insertKV memo₁ key result), ?_, ?_⟩ <;>
                simp only [evalStep, hm, hc, hcl, hkv, h1, h2, hev, if_neg, if_true,
                  not_false_iff, if_pos]
        · refine ⟨(cell.content, insertKV memo key cell.content), ?_, ?_⟩ <;>
            simp only [evalStep, hm, hc, hcl, hcf, if_neg, not_false_iff]
  · refine ⟨(v, memo), ?_, ?_⟩ <;> simp only [evalStep, hm]

/-- Any two fuels above the measure make the evaluator succeed with the same
result. -/
theorem getDVCF_fuel_agree (env : JSLib) (cells : Store) :
    ∀ (f₁ f₂ : Nat) (key : Key) (memo : Memo) (visiting : List Key),
      remKeys cells visiting < f₁ → remKeys cells visiting < f₂ →
      ∃ r, getDVCF env cells f₁ key memo visiting = some r ∧
        getDVCF env cells f₂ key memo visiting = some r := by
  intro f₁
  induction f₁ using Nat.strong_induction_on with
  | _ f₁ ih =>
    intro f₂ key memo V h1 h2
    rcases f₁ with _ | f
    · omega
    rcases f₂ with _ | g
    · omega
    show ∃ r, evalStep env cells (getDVCF env cells f) key memo V = some r ∧
      evalStep env cells (getDVCF env cells g) key memo V = some r
    refine evalStep_congr env cells _ _ key memo V (fun hkey hkv k m => ?_)
    have hrem := remKeys_cons hkey hkv
    exact ih f (Nat.lt_succ_self f) g k m (key :: V) (by omega) (by omega)

/-- Nonstrict monotonicity of filtering under predicate weakening. -/
theorem length_filter_mono {p q : Key → Bool} (h : ∀ k, p k = true → q k = true) :
    ∀ l : List Key, (l.filter p).length ≤ (l.filter q).length := by
  intro l
  induction l with
  | nil => simp
  | cons a as ih =>
    rcases hp : p a with _ | _
    · rw [List.filter_cons_of_neg (by simp [hp])]
      rcases hq : q a with _ | _
      · rw [List.filter_cons_of_neg (by simp [hq])]
        exact ih
      · rw [List.filter_cons_of_pos hq]
        exact le_trans ih (Nat.le_succ _)
    · rw [List.filter_cons_of_pos hp, List.filter_cons_of_pos (h a hp)]
      exact Nat.succ_le_succ ih

/-- Strict monotonicity of filtering given a separating witness element. -/
theorem length_filter_lt {p q : Key → Bool} (h : ∀ k, p k = true → q k = true)
    {l : List Key} {e : Key} (he : e ∈ l) (hqe : q e = true) (hpe : p e = false) :
    (l.filter p).length < (l.filter q).length := by
  induction l with
  | nil => cases he
  | cons a as ih =>
    rcases List.mem_cons.mp he with rfl | he'
    · rw [List.filter_cons_of_neg (by simp [hpe]), List.filter_cons_of_pos hqe]
      exact Nat.lt_succ_of_le (length_filter_mono h as)
    · rcases hp : p a with _ | _
      · rw [List.filter_cons_of_neg (by simp [hp])]
        rcases hq : q a with _ | _
        · rw [List.filter_cons_of_neg (by simp [hq])]
          exact ih he'
        · rw [List.filter_cons_of_pos hq]
          exact Nat.lt_succ_of_lt (ih he')
      · rw [List.filter_cons_of_pos hp, List.filter_cons_of_pos (h a hp)]
        exact Nat.succ_lt_succ (ih he')

/-- Growing the affected set can only shrink the undiscovered budget. -/
theorem pushBudget_mono (D : List (Key × List Key)) {aff aff' : List Key}
    (h : ∀ k, k ∈ aff → k ∈ aff') :
    pushBudget D aff' ≤ pushBudget D aff := by
  unfold pushBudget
  refine List.sum_le_sum (fun e _ => ?_)
  refine length_filter_mono (fun k hk => ?_) e.2
  simp only [decide_eq_true_eq] at hk ⊢
  exact fun hmem => hk (h k hmem)

/-- Adding an undiscovered key that occurs in some dependent set strictly
shrinks the budget. -/
theorem pushBudget_add_lt {D : List (Key × List Key)} {aff : List Key} {e : Key}
    (hentry : ∃ entry ∈ D, e ∈ entry.2) (he : e ∉ aff) :
    pushBudget D (aff ++ [e]) < pushBudget D aff := by
  obtain ⟨entry, hD, hel⟩ := hentry
  induction D with
  | nil => cases hD
  | cons d ds ih =>
    unfold pushBudget
    simp only [List.map_cons, List.sum_cons]
    have hsub : ∀ k : Key, k ∈ aff → k ∈ aff ++ [e] := fun k hk => List.mem_append_left _ hk
    rcases List.mem_cons.mp hD with rfl | hD'
    · have hhead : (entry.2.filter (fun k => decide (k ∉ aff ++ [e]))).length <
          (entry.2.filter (fun k => decide (k ∉ aff))).length := by
        refine length_filter_lt (fun k hk => ?_) hel (by simp [he]) (by simp)
        simp only [decide_eq_true_eq] at hk ⊢
        exact fun hmem => hk (List.mem_append_left _ hmem)
      have htail : pushBudget ds (aff ++ [e]) ≤ pushBudget ds aff := pushBudget_mono ds hsub
      unfold pushBudget at htail
      omega
    · have hhead : (d.2.filter (fun k => decide (k ∉ aff ++ [e]))).length ≤
          (d.2.filter (fun k => decide (k ∉ aff))).length := by
        refine length_filter_mono (fun k hk => ?_) d.2
        simp only [decide_eq_true_eq] at hk ⊢
        exact fun hmem => hk (List.mem_append_left _ hmem)
      have htail := ih hD'
      unfold pushBudget at htail
      omega

/-- Processing one dependent set cannot increase the combined measure
(stack size plus undiscovered budget). -/
theorem affected_inner_fold (D : List (Key × List Key)) :
    ∀ (l : List Key), (∀ e ∈ l, ∃ entry ∈ D, e ∈ entry.2) →
    ∀ (aff stack : List Key),
      ((l.foldl (fun acc dep => if dep ∈ acc.1 then acc else (acc.1 ++ [dep], dep :: acc.2))
          (aff, stack)).2).length +
        pushBudget D ((l.foldl (fun acc dep =>
          if dep ∈ acc.1 then acc else (acc.1 ++ [dep], dep :: acc.2)) (aff, stack)).1) ≤
      stack.length + pushBudget D aff := by
  intro l
  induction l with
  | nil => exact fun _ aff stack => le_refl _
  | cons dep rest ih =>
    intro hl aff stack
    simp only [List.foldl_cons]
    by_cases hd : dep ∈ aff
    · rw [if_pos hd]
      exact ih (fun e he => hl e (List.mem_cons_of_mem _ he)) aff stack
    · rw [if_neg hd]
      have hstep := ih (fun e he => hl e (List.mem_cons_of_mem _ he)) (aff ++ [dep]) (dep :: stack)
      have hbud := pushBudget_add_lt (hl dep (List.mem_cons_self _ _)) hd
      simp only [List.length_cons] at hstep
      omega

/-- The worklist loop succeeds whenever its fuel exceeds the measure. -/
theorem affectedLoop_some (D : List (Key × List Key)) :
    ∀ (fuel : Nat) (stack affected : List Key),
      stack.length + pushBudget D affected < fuel →
      (affectedLoop D fuel stack affected).isSome = true := by
  intro fuel
  induction fuel with
  | zero => intro stack aff h; omega
  | succ fuel ih =>
    intro stack aff h
    cases stack with
    | nil => rw [affectedLoop]; rfl
    | cons current rest =>
      show (affectedLoop D fuel _ _).isSome = true
      have hl : ∀ e ∈ lookupSet D current, ∃ entry ∈ D, e ∈ entry.2 := by
        intro e he
        unfold lookupSet at he
        rcases hlk : lookup? D current with _ | l
        · rw [hlk] at he; simp at he
        · rw [hlk] at he
          exact ⟨(current, l), lookup?_mem hlk, he⟩
      have hfold := affected_inner_fold D (lookupSet D current) hl aff rest
      apply ih
      simp only [List.length_cons] at h
      omega

/-- C3: the evaluator terminates — with fuel one more than the number of
distinct store keys (the recursion-depth bound of the claim), and with any
larger fuel, the fuelled recursion returns (no exception, no fuel
exhaustion) exactly the value of the total function `getDisplayValueForCell`
— and the worklist loop of the orchestrator likewise returns within its fuel
bound, making `computeAllDisplayValues`, `buildDependencyGraph` (structurally
recursive) and `computeUpdatedDisplayValues` total. -/
theorem C3_totality :
    (∀ (env : JSLib) (cells : Store) (key : Key) (memo : Memo) (visiting : List Key)
        (fuel : Nat), fuelBound cells ≤ fuel →
      getDVCF env cells fuel key memo visiting =
        some (getDisplayValueForCell env cells key memo visiting)) ∧
    (∀ (changedKeys : List Key) (g : DepGraph),
      affectedLoop g.dependents (affectedFuel changedKeys g.dependents)
        changedKeys.reverse (changedKeys.foldl setAdd []) =
        some (getAffectedCells changedKeys g)) := by
  constructor
  · intro env cells key memo V fuel hf
    have hrem := remKeys_lt_fuelBound cells V
    obtain ⟨r, h1, h2⟩ := getDVCF_fuel_agree env cells fuel (fuelBound cells) key memo V
      (lt_of_lt_of_le hrem hf) hrem
    rw [h1]
    unfold getDisplayValueForCell
    rw [h2]
    rfl
  · intro changed g
    have hbud : pushBudget g.dependents (changed.foldl setAdd []) ≤
        (g.dependents.map (fun e => e.2.length)).sum := by
      unfold pushBudget
      exact List.sum_le_sum (fun e _ => List.length_filter_le _ _)
    have hfuel : changed.reverse.length + pushBudget g.dependents (changed.foldl setAdd []) <
        affectedFuel changed g.dependents := by
      unfold affectedFuel
      rw [List.length_reverse]
      omega
    have hs := affectedLoop_some g.dependents _ _ _ hfuel
    obtain ⟨v, hv⟩ := Option.isSome_iff_exists.mp hs
    rw [hv]
    show _ = some ((affectedLoop g.dependents (affectedFuel changed g.dependents)
      changed.reverse (changed.foldl setAdd [])).getD (changed.foldl setAdd []))
    rw [hv]
    rfl

/-- C3 witness: totality at a concrete store, fuel, and changed-key list. -/
theorem C3_totality_witness :
    getDVCF miniJS [((-14, 15), ⟨-14, 15, "=A1"⟩)] 5 (-14, 15) [] [] =
      some (getDisplayValueForCell miniJS [((-14, 15), ⟨-14, 15, "=A1"⟩)] (-14, 15) [] []) ∧
    affectedLoop (buildDependencyGraph [((-14, 15), ⟨-14, 15, "=A1"⟩)]).dependents
      (affectedFuel [(-14, 15)] (buildDependencyGraph [((-14, 15), ⟨-14, 15, "=A1"⟩)]).dependents)
      [(-14, 15)].reverse ([(-14, 15)].foldl setAdd []) =
      some (getAffectedCells [(-14, 15)] (buildDependencyGraph [((-14, 15), ⟨-14, 15, "=A1"⟩)])) :=
  ⟨C3_totality.1 miniJS _ _ _ _ 5 (by decide), C3_totality.2 [(-14, 15)] _⟩

/-! ## Claim C2: selective recompute refines full recompute

Strategy: in an acyclic store every evaluation of a key — whatever the
incoming memo (as long as its entries are canonical) and whatever fuel above
the measure — returns the canonical value `cval` and only adds canonical
entries to the memo.  Both the full recompute and the selective recompute
evaluate keys top-level with empty visiting sets and canonical memos, so
they agree key-by-key. -/

/-- One unfolding of the fuelled evaluator at the canonical fuel. -/
theorem getDVCF_fuelBound_eq (env : JSLib) (cells : Store) (key : Key)
    (memo : Memo) (V : List Key) :
    getDVCF env cells (fuelBound cells) key memo V =
      evalStep env cells (getDVCF env cells ((keysOf cells).dedup.length)) key memo V := rfl

/-- Evaluator branch: memo hit. -/
theorem evalStep_memoHit (env : JSLib) (cells : Store)
    (recur : Key → Memo → List Key → Option (String × Memo))
    (key : Key) (memo : Memo) (V : List Key) (v : String)
    (hm : lookup? memo key = some v) :
    evalStep env cells recur key memo V = some (v, memo) := by
  simp only [evalStep, hm]

/-- Evaluator branch: no cell at the key. -/
theorem evalStep_absent (env : JSLib) (cells : Store)
    (recur : Key → Memo → List Key → Option (String × Memo))
    (key : Key) (memo : Memo) (V : List Key)
    (hm : lookup? memo key = none) (hc : lookup? cells key = none) :
    evalStep env cells recur key memo V = some ("", insertKV memo key "") := by
  simp only [evalStep, hm, hc]

/-- Evaluator branch: empty content. -/
theorem evalStep_empty (env : JSLib) (cells : Store)
    (recur : Key → Memo → List Key → Option (String × Memo))
    (key : Key) (memo : Memo) (V : List Key) (cell : Cell)
    (hm : lookup? memo key = none) (hc : lookup? cells key = some cell)
    (hcl : cell.content.toList = []) :
    evalStep env cells recur key memo V = some ("", insertKV memo key "") := by
  simp only [evalStep, hm, hc, hcl]

/-- Evaluator branch: literal (non-formula) content. -/
theorem evalStep_literal (env : JSLib) (cells : Store)
    (recur : Key → Memo → List Key → Option (String × Memo))
    (key : Key) (memo : Memo) (V : List Key) (cell : Cell) (c : Char) (body : List Char)
    (hm : lookup? memo key = none) (hc : lookup? cells key = some cell)
    (hcl : cell.content.toList = c :: body) (hcf : ¬ c = '=') :
    evalStep env cells recur key memo V =
      some (cell.content, insertKV memo key cell.content) := by
  simp only [evalStep, hm, hc, hcl, hcf, if_neg, not_false_iff]

/-- Evaluator branch: cycle detected. -/
theorem evalStep_cycle (env : JSLib) (cells : Store)
    (recur : Key → Memo → List Key → Option (String × Memo))
    (key : Key) (memo : Memo) (V : List Key) (cell : Cell) (body : List Char)
    (hm : lookup? memo key = none) (hc : lookup? cells key = some cell)
    (hcl : cell.content.toList = '=' :: body) (hv : key ∈ V) :
    evalStep env cells recur key memo V =
      some (ERROR_VALUE, insertKV memo key ERROR_VALUE) := by
  simp only [evalStep, hm, hc, hcl, hv, if_pos, if_true]

/-- Evaluator branch: formula, no cycle. -/
theorem evalStep_formula (env : JSLib) (cells : Store)
    (recur : Key → Memo → List Key → Option (String × Memo))
    (key : Key) (memo : Memo) (V : List Key) (cell : Cell) (body : List Char)
    (hm : lookup? memo key = none) (hc : lookup? cells key = some cell)
    (hcl : cell.content.toList = '=' :: body) (hv : key ∉ V) :
    evalStep env cells recur key memo V =
      match evalRefs env recur (extractRefsChars body) [] memo (key :: V) with
      | none => none
      | some (scope, memo₁) =>
        match env.mathEval body scope with
        | some result => some (result, insertKV memo₁ key result)
        | none => some (ERROR_VALUE, insertKV memo₁ key ERROR_VALUE) := by
  simp only [evalStep, hm, hc, hcl, hv, if_neg, not_false_iff, if_pos]

/-- The canonical value of a key with no cell is the empty string. -/
theorem cval_absent (env : JSLib) (cells : Store) (key : Key)
    (hc : lookup? cells key = none) : cval env cells key = "" := by
  unfold cval getDisplayValueForCell
  rw [getDVCF_fuelBound_eq, evalStep_absent env cells _ key [] [] rfl hc]
  rfl

/-- The canonical value of a cell with empty content is the empty string. -/
theorem cval_empty (env : JSLib) (cells : Store) (key : Key) (cell : Cell)
    (hc : lookup? cells key = some cell) (hcl : cell.content.toList = []) :
    cval env cells key = "" := by
  unfold cval getDisplayValueForCell
  rw [getDVCF_fuelBound_eq, evalStep_empty env cells _ key [] [] cell rfl hc hcl]
  rfl

/-- The canonical value of a literal cell is its content verbatim. -/
theorem cval_literal (env : JSLib) (cells : Store) (key : Key) (cell : Cell)
    (c : Char) (body : List Char)
    (hc : lookup? cells key = some cell) (hcl : cell.content.toList = c :: body)
    (hcf : ¬ c = '=') : cval env cells key = cell.content := by
  unfold cval getDisplayValueForCell
  rw [getDVCF_fuelBound_eq, evalStep_literal env cells _ key [] [] cell c body rfl hc hcl hcf]
  rfl

/-- Looking up the just-inserted key. -/
theorem lookup?_insert_self {α : Type} (m : List (Key × α)) (k : Key) (v : α) :
    lookup? (insertKV m k v) k = some v := by
  rw [lookup?_insertKV]
  simp

/-- Inserting a canonical entry preserves memo soundness. -/
theorem memoSound_insert {env : JSLib} {cells : Store} {memo : Memo} {key : Key} {v : String}
    (hs : MemoSound env cells memo) (hv : v = cval env cells key) :
    MemoSound env cells (insertKV memo key v) := by
  intro k w hw
  rw [lookup?_insertKV] at hw
  by_cases hk : key = k
  · subst hk
    rw [if_pos rfl] at hw
    cases hw
    exact hv
  · rw [if_neg hk] at hw
    exact hs k w hw

/-- Inserting a canonical entry into a sound memo preserves all existing
entries (an existing entry at the same key is itself canonical). -/
theorem memoExtends_insert_sound {env : JSLib} {cells : Store} {memo : Memo}
    {key : Key} {v : String}
    (hs : MemoSound env cells memo) (hv : v = cval env cells key) :
    MemoExtends memo (insertKV memo key v) := by
  intro k w hw
  rw [lookup?_insertKV]
  by_cases hk : key = k
  · subst hk
    rw [if_pos rfl, hs key w hw, ← hv]
  · rw [if_neg hk]
    exact hw

/-- `MemoExtends` is transitive. -/
theorem memoExtends_trans {m₁ m₂ m₃ : Memo}
    (h1 : MemoExtends m₁ m₂) (h2 : MemoExtends m₂ m₃) : MemoExtends m₁ m₃ :=
  fun k v hv => h2 k v (h1 k v hv)

/-- A resolved extracted reference is a graph edge of the formula cell. -/
theorem refKeysOf_of_ref {cell : Cell} {body : List Char} {ref : String} {b : Key}
    (hcl : cell.content.toList = '=' :: body)
    (href : ref ∈ extractRefsChars body) (hxy : cellRefToXY (some ref) = some b) :
    b ∈ refKeysOf cell := by
  unfold refKeysOf
  rw [hcl]
  simp only [if_pos]
  exact List.mem_filterMap.mpr ⟨ref, href, hxy⟩

/-- The measure at the empty visiting set is the number of distinct keys. -/
theorem remKeys_nil (cells : Store) : remKeys cells [] = (keysOf cells).dedup.length := by
  unfold remKeys
  rw [List.filter_eq_self.mpr (fun a _ => by simp)]

/-- The scope-building loop computes the canonical scope, in an acyclic
store: given the master induction hypothesis for all keys of rank below `N`,
processing a reference list whose resolved targets all have rank below `N`
(and below every rank in the visiting set) extends the memo soundly and
produces exactly the canonical operand bindings. -/
theorem master_loop (env : JSLib) (cells : Store) (rank : Key → Nat) (N : Nat)
    (IH : ∀ b, rank b < N → ∀ (memo : Memo) (V : List Key) (fuel : Nat),
      MemoSound env cells memo → (∀ v ∈ V, rank b < rank v) → remKeys cells V < fuel →
      ∃ m', getDVCF env cells fuel b memo V = some (cval env cells b, m') ∧
        MemoSound env cells m' ∧ MemoExtends memo m' ∧
        lookup? m' b = some (cval env cells b)) :
    ∀ (refs : List String) (scope : List (String × Int)) (memo : Memo)
      (V' : List Key) (fuel : Nat),
      MemoSound env cells memo →
      (∀ ref ∈ refs, ∀ b, cellRefToXY (some ref) = some b →
        rank b < N ∧ ∀ v ∈ V', rank b < rank v) →
      remKeys cells V' < fuel →
      ∃ m', evalRefs env (getDVCF env cells fuel) refs scope memo V' =
          some (scope ++ canonScope env cells refs, m') ∧
        MemoSound env cells m' ∧ MemoExtends memo m' := by
  intro refs
  induction refs with
  | nil =>
    intro scope memo V' fuel hs _ _
    exact ⟨memo, by simp [canonScope, evalRefs], hs, fun k w hw => hw⟩
  | cons ref rest ihr =>
    intro scope memo V' fuel hs hrefs hfl
    have hrest : ∀ r ∈ rest, ∀ b, cellRefToXY (some r) = some b →
        rank b < N ∧ ∀ v ∈ V', rank b < rank v :=
      fun r hr => hrefs r (List.mem_cons_of_mem _ hr)
    rcases hxy : cellRefToXY (some ref) with _ | b
    · have hco : canonOperand env cells ref = DEFAULT_NUMERIC_VALUE := by
        simp [canonOperand, hxy]
      obtain ⟨m', h1, h2, h3⟩ :=
        ihr (scope ++ [(ref, DEFAULT_NUMERIC_VALUE)]) memo V' fuel hs hrest hfl
      refine ⟨m', ?_, h2, h3⟩
      simp only [evalRefs, refOperand, hxy, h1, canonScope, List.map_cons, hco]
      rw [List.append_assoc]
      rfl
    · obtain ⟨hbN, hbV⟩ := hrefs ref (List.mem_cons_self _ _) b hxy
      obtain ⟨m₁, hrun, hs₁, hext₁, _⟩ := IH b hbN memo V' fuel hs hbV hfl
      rcases hpf : env.parseFloat (stripCommas (cval env cells b)) with _ | q
      · have hco : canonOperand env cells ref = DEFAULT_NUMERIC_VALUE := by
          simp [canonOperand, hxy, hpf]
        obtain ⟨m', h1, h2, h3⟩ :=
          ihr (scope ++ [(ref, DEFAULT_NUMERIC_VALUE)]) m₁ V' fuel hs₁ hrest hfl
        refine ⟨m', ?_, h2, memoExtends_trans hext₁ h3⟩
        simp only [evalRefs, refOperand, hxy, hrun, hpf, h1, canonScope, List.map_cons, hco]
        rw [List.append_assoc]
        rfl
      · have hco : canonOperand env cells ref = q := by
          simp [canonOperand, hxy, hpf]
        obtain ⟨m', h1, h2, h3⟩ :=
          ihr (scope ++ [(ref, q)]) m₁ V' fuel hs₁ hrest hfl
        refine ⟨m', ?_, h2, memoExtends_trans hext₁ h3⟩
        simp only [evalRefs, refOperand, hxy, hrun, hpf, h1, canonScope, List.map_cons, hco]
        rw [List.append_assoc]
        rfl

/-- Master lemma: in a ranked (acyclic) store, any evaluation of a key over
a sound memo, a visiting set of strictly higher ranks, and sufficient fuel
returns the canonical value and a sound extension of the memo. -/
theorem master_canonical (env : JSLib) (cells : Store) (rank : Key → Nat)
    (hrank : ∀ a c b, lookup? cells a = some c → b ∈ refKeysOf c → rank b < rank a) :
    ∀ (n : Nat) (key : Key), rank key < n →
    ∀ (memo : Memo) (V : List Key) (fuel : Nat),
      MemoSound env cells memo → (∀ v ∈ V, rank key < rank v) →
      remKeys cells V < fuel →
      ∃ m', getDVCF env cells fuel key memo V = some (cval env cells key, m') ∧
        MemoSound env cells m' ∧ MemoExtends memo m' ∧
        lookup? m' key = some (cval env cells key) := by
  intro n
  induction n with
  | zero => intro key h; omega
  | succ n ih =>
    intro key hkn memo V fuel hsound hV hfuel
    rcases fuel with _ | f
    · omega
    show ∃ m', evalStep env cells (getDVCF env cells f) key memo V = _ ∧ _
    rcases hm : lookup? memo key with _ | v
    · rcases hc : lookup? cells key with _ | cell
      · have hcv := cval_absent env cells key hc
        refine ⟨insertKV memo key "", ?_, ?_, ?_, ?_⟩
        · rw [evalStep_absent env cells _ key memo V hm hc, hcv]
        · exact memoSound_insert hsound hcv.symm
        · exact memoExtends_insert_sound hsound hcv.symm
        · rw [hcv]; exact lookup?_insert_self memo key ""
      · rcases hcl : cell.content.toList with _ | ⟨c, body⟩
        · have hcv := cval_empty env cells key cell hc hcl
          refine ⟨insertKV memo key "", ?_, ?_, ?_, ?_⟩
          · rw [evalStep_empty env cells _ key memo V cell hm hc hcl, hcv]
          · exact memoSound_insert hsound hcv.symm
          · exact memoExtends_insert_sound hsound hcv.symm
          · rw [hcv]; exact lookup?_insert_self memo key ""
        · by_cases hcf : c = '='
          · subst hcf
            have hkv : key ∉ V := fun hin => absurd (hV key hin) (lt_irrefl _)
            have hkeymem : key ∈ keysOf cells := lookup?_mem_keys hc
            have hrefs : ∀ ref ∈ extractRefsChars body, ∀ b,
                cellRefToXY (some ref) = some b →
                rank b < n ∧ ∀ v ∈ key :: V, rank b < rank v := by
              intro ref href b hxy
              have hedge := hrank key cell b hc (refKeysOf_of_ref hcl href hxy)
              refine ⟨by omega, fun v hv => ?_⟩
              rcases List.mem_cons.mp hv with rfl | hv'
              · exact hedge
              · exact lt_trans hedge (hV v hv')
            have hloopfuel : remKeys cells (key :: V) < f := by
              have := remKeys_cons hkeymem hkv
              omega
            obtain ⟨m₁, hrun, hs₁, hext₁⟩ := master_loop env cells rank n ih
              (extractRefsChars body) [] memo (key :: V) f hsound hrefs hloopfuel
            have hcv : cval env cells key =
                (match env.mathEval body (canonScope env cells (extractRefsChars body)) with
                 | some result => result
                 | none => ERROR_VALUE) := by
              unfold cval getDisplayValueForCell
              rw [getDVCF_fuelBound_eq,
                evalStep_formula env cells _ key [] [] cell body rfl hc hcl
                  (List.not_mem_nil key)]
              have hfuel₂ : remKeys cells [key] < (keysOf cells).dedup.length := by
                have h1 := remKeys_cons hkeymem (List.not_mem_nil key)
                have h2 := remKeys_nil cells
                omega
              have hrefs₂ : ∀ ref ∈ extractRefsChars body, ∀ b,
                  cellRefToXY (some ref) = some b →
                  rank b < n ∧ ∀ v ∈ [key], rank b < rank v := by
                intro ref href b hxy
                obtain ⟨h1, h2⟩ := hrefs ref href b hxy
                exact ⟨h1, fun v hv => by
                  rcases List.mem_cons.mp hv with rfl | hv'
                  · exact h2 v (List.mem_cons_self _ _)
                  · cases hv'⟩
              obtain ⟨m₂, hrun₂, _, _⟩ := master_loop env cells rank n ih
                (extractRefsChars body) [] [] [key] ((keysOf cells).dedup.length)
                (fun k w hw => by cases hw) hrefs₂ hfuel₂
              rw [hrun₂, List.nil_append]
              rcases hev₀ : env.mathEval body (canonScope env cells (extractRefsChars body)) with
                _ | result <;> simp [hev₀]
            rcases hev : env.mathEval body (canonScope env cells (extractRefsChars body)) with
              _ | result
            · have hcv' : cval env cells key = ERROR_VALUE := by rw [hcv, hev]
              refine ⟨insertKV m₁ key ERROR_VALUE, ?_, ?_, ?_, ?_⟩
              · rw [evalStep_formula env cells _ key memo V cell body hm hc hcl hkv, hrun,
                  List.nil_append]
                simp only [hev, hcv']
              · exact memoSound_insert hs₁ hcv'.symm
              · exact memoExtends_trans hext₁ (memoExtends_insert_sound hs₁ hcv'.symm)
              · rw [hcv']; exact lookup?_insert_self m₁ key ERROR_VALUE
            · have hcv' : cval env cells key = result := by rw [hcv, hev]
              refine ⟨insertKV m₁ key result, ?_, ?_, ?_, ?_⟩
              · rw [evalStep_formula env cells _ key memo V cell body hm hc hcl hkv, hrun,
                  List.nil_append]
                simp only [hev, hcv']
              · exact memoSound_insert hs₁ hcv'.symm
              · exact memoExtends_trans hext₁ (memoExtends_insert_sound hs₁ hcv'.symm)
              · rw [hcv']; exact lookup?_insert_self m₁ key result
          · have hcv := cval_literal env cells key cell c body hc hcl hcf
            refine ⟨insertKV memo key cell.content, ?_, ?_, ?_, ?_⟩
            · rw [evalStep_literal env cells _ key memo V cell c body hm hc hcl hcf, hcv]
            · exact memoSound_insert hsound hcv.symm
            · exact memoExtends_insert_sound hsound hcv.symm
            · rw [hcv]; exact lookup?_insert_self memo key cell.content
    · have hv := hsound key v hm
      subst hv
      exact ⟨memo, by
        rw [evalStep_memoHit env cells _ key memo V _ hm], hsound, fun k w hw => hw, hm⟩

/-- A finite acyclic reference graph admits a strictly decreasing rank:
rank a key by the number of candidate keys it transitively reaches. -/
theorem acyclic_of_noCircularRefs (cells : Store) (hnc : NoCircularRefs cells) :
    Acyclic cells := by
  classical
  refine ⟨fun x => Finset.card
    ((keysOf cells ++ (cells.map (fun e => refKeysOf e.2)).flatten).toFinset.filter
      (fun y => Relation.TransGen (FormulaRefersTo cells) x y)), ?_⟩
  intro a c b hc hb
  have hedge : FormulaRefersTo cells a b := ⟨c, hc, hb⟩
  have hsub : (keysOf cells ++ (cells.map (fun e => refKeysOf e.2)).flatten).toFinset.filter
      (fun y => Relation.TransGen (FormulaRefersTo cells) b y) ⊆
    (keysOf cells ++ (cells.map (fun e => refKeysOf e.2)).flatten).toFinset.filter
      (fun y => Relation.TransGen (FormulaRefersTo cells) a y) := by
    intro y hy
    rw [Finset.mem_filter] at hy ⊢
    exact ⟨hy.1, Relation.TransGen.head hedge hy.2⟩
  have hbU : b ∈ (keysOf cells ++ (cells.map (fun e => refKeysOf e.2)).flatten).toFinset := by
    rw [List.mem_toFinset, List.mem_append]
    refine Or.inr ?_
    rw [List.mem_flatten]
    exact ⟨refKeysOf c, List.mem_map.mpr ⟨(a, c), lookup?_mem hc, rfl⟩, hb⟩
  have hbA : b ∈ (keysOf cells ++ (cells.map (fun e => refKeysOf e.2)).flatten).toFinset.filter
      (fun y => Relation.TransGen (FormulaRefersTo cells) a y) :=
    Finset.mem_filter.mpr ⟨hbU, Relation.TransGen.single hedge⟩
  have hbB : b ∉ (keysOf cells ++ (cells.map (fun e => refKeysOf e.2)).flatten).toFinset.filter
      (fun y => Relation.TransGen (FormulaRefersTo cells) b y) :=
    fun hmem => hnc b (Finset.mem_filter.mp hmem).2
  exact Finset.card_lt_card ((Finset.ssubset_iff_of_subset hsub).mpr ⟨b, hbA, hbB⟩)

/-- Top-level evaluation over a sound memo (fresh visiting set) in an
acyclic store: canonical value, sound memo extension. -/
theorem gdvc_canonical (env : JSLib) (cells : Store) (hac : Acyclic cells)
    (key : Key) (memo : Memo) (hs : MemoSound env cells memo) :
    ∃ m', getDisplayValueForCell env cells key memo [] = (cval env cells key, m') ∧
      MemoSound env cells m' ∧ MemoExtends memo m' ∧
      lookup? m' key = some (cval env cells key) := by
  obtain ⟨rank, hrank⟩ := hac
  obtain ⟨m', h1, h2, h3, h4⟩ := master_canonical env cells rank hrank
    (rank key + 1) key (Nat.lt_succ_self _) memo [] (fuelBound cells) hs
    (fun v hv => absurd hv (List.not_mem_nil v)) (remKeys_lt_fuelBound cells [])
  refine ⟨m', ?_, h2, h3, h4⟩
  unfold getDisplayValueForCell
  rw [h1]
  rfl

/-- The full-recompute fold: a sound memo stays sound and every evaluated
key receives its canonical entry. -/
theorem computeAll_fold (env : JSLib) (cells : Store) (hac : Acyclic cells) :
    ∀ (ks : List Key) (memo : Memo), MemoSound env cells memo →
      MemoSound env cells
        (ks.foldl (fun memo key => (getDisplayValueForCell env cells key memo []).2) memo) ∧
      MemoExtends memo
        (ks.foldl (fun memo key => (getDisplayValueForCell env cells key memo []).2) memo) ∧
      ∀ k ∈ ks, lookup?
        (ks.foldl (fun memo key => (getDisplayValueForCell env cells key memo []).2) memo) k =
          some (cval env cells k) := by
  intro ks
  induction ks with
  | nil =>
    intro memo hs
    exact ⟨hs, fun k w hw => hw, fun k hk => absurd hk (List.not_mem_nil k)⟩
  | cons key ks ih =>
    intro memo hs
    obtain ⟨m₁, h1, hs₁, hext₁, hlk₁⟩ := gdvc_canonical env cells hac key memo hs
    simp only [List.foldl_cons, h1]
    obtain ⟨hsf, hextf, hentf⟩ := ih m₁ hs₁
    refine ⟨hsf, memoExtends_trans hext₁ hextf, fun k hk => ?_⟩
    rcases List.mem_cons.mp hk with rfl | hk'
    · exact hextf k (cval env cells k) hlk₁
    · exact hentf k hk'

/-- In an acyclic store the full recompute reads back the canonical value of
every key (empty string for keys without an entry, matching the canonical
value of keys without a cell). -/
theorem displayOf_computeAll (env : JSLib) (cells : Store) (hac : Acyclic cells)
    (k : Key) : displayOf (computeAllDisplayValues env cells) k = cval env cells k := by
  obtain ⟨hsf, _, hentf⟩ := computeAll_fold env cells hac (keysOf cells) []
    (fun k w hw => by cases hw)
  show displayOf ((keysOf cells).foldl
    (fun memo key => (getDisplayValueForCell env cells key memo []).2) []) k = _
  rcases hlk : lookup? ((keysOf cells).foldl
      (fun memo key => (getDisplayValueForCell env cells key memo []).2) []) k with _ | v
  · have hnotin : k ∉ keysOf cells := by
      intro hin
      rw [hentf k hin] at hlk
      cases hlk
    have hcells : lookup? cells k = none := by
      rcases hl : lookup? cells k with _ | c
      · rfl
      · exact absurd (lookup?_mem_keys hl) hnotin
    rw [cval_absent env cells k hcells]
    unfold displayOf
    rw [hlk]
    rfl
  · unfold displayOf
    rw [hlk, hsf k v hlk]
    rfl

/-- The selective-recompute fold: every processed key is overwritten with
its canonical value, every other key keeps its previous entry. -/
theorem selective_fold (env : JSLib) (cells : Store) (hac : Acyclic cells) :
    ∀ (ks : List Key) (nv memo : Memo), MemoSound env cells memo →
      (∀ k ∈ ks, lookup?
        ((ks.foldl (fun acc key =>
          (insertKV acc.1 key (getDisplayValueForCell env cells key acc.2 []).1,
           (getDisplayValueForCell env cells key acc.2 []).2)) (nv, memo)).1) k =
        some (cval env cells k)) ∧
      (∀ k, k ∉ ks → lookup?
        ((ks.foldl (fun acc key =>
          (insertKV acc.1 key (getDisplayValueForCell env cells key acc.2 []).1,
           (getDisplayValueForCell env cells key acc.2 []).2)) (nv, memo)).1) k =
        lookup? nv k) := by
  intro ks
  induction ks with
  | nil =>
    intro nv memo _
    exact ⟨fun k hk => absurd hk (List.not_mem_nil k), fun k _ => rfl⟩
  | cons key ks ih =>
    intro nv memo hs
    obtain ⟨m₁, h1, hs₁, _, _⟩ := gdvc_canonical env cells hac key memo hs
    simp only [List.foldl_cons, h1]
    obtain ⟨hmem, hrest⟩ := ih (insertKV nv key (cval env cells key)) m₁ hs₁
    constructor
    · intro k hk
      rcases List.mem_cons.mp hk with rfl | hk'
      · by_cases hkk : k ∈ ks
        · exact hmem k hkk
        · rw [hrest k hkk]
          exact lookup?_insert_self nv k (cval env cells k)
      · exact hmem k hk'
    · intro k hk
      have hk1 : k ∉ ks := fun h => hk (List.mem_cons_of_mem _ h)
      have hk2 : ¬ key = k := fun h => hk (h ▸ List.mem_cons_self _ _)
      rw [hrest k hk1, lookup?_insertKV, if_neg hk2]

/-- C2 amended: for every acyclic store, every previous value map, and every
**non-empty** list of changed keys, the selective recompute assigns to each
affected key exactly the string the full recompute produces for that key,
and leaves every unaffected key at its value from `previousValues`.  (For an
empty changed-key list the source instead falls back to a full recompute,
discarding `previousValues` — see the counterexample.) -/
theorem C2_selective_agrees_full (env : JSLib) (cells : Store) (prev : Memo)
    (changed : List Key) (hnc : NoCircularRefs cells) (hne : ¬ changed = []) :
    (∀ k ∈ getAffectedCells changed (buildDependencyGraph cells),
      lookup? (computeUpdatedDisplayValues env cells prev changed) k =
        some (displayOf (computeAllDisplayValues env cells) k)) ∧
    (∀ k, k ∉ getAffectedCells changed (buildDependencyGraph cells) →
      lookup? (computeUpdatedDisplayValues env cells prev changed) k = lookup? prev k) := by
  have hac : Acyclic cells := acyclic_of_noCircularRefs cells hnc
  obtain ⟨hmem, hrest⟩ := selective_fold env cells hac
    (getAffectedCells changed (buildDependencyGraph cells)) prev []
    (fun k w hw => by cases hw)
  constructor
  · intro k hk
    rw [displayOf_computeAll env cells hac k]
    unfold computeUpdatedDisplayValues
    rw [if_neg hne]
    exact hmem k hk
  · intro k hk
    unfold computeUpdatedDisplayValues
    rw [if_neg hne]
    exact hrest k hk

/-- C2 counterexample: with an **empty** changed-key list the orchestrator
performs a full recompute and discards `previousValues`, so an unaffected
key does not keep its previous value — refuting the claim for "every set of
changed keys".  Here the store is empty (trivially acyclic), the affected
set of the empty change set is empty, yet the key (0,0) loses its previous
value "5". -/
theorem C2_counterexample :
    NoCircularRefs ([] : Store) ∧
    (0, 0) ∉ getAffectedCells [] (buildDependencyGraph ([] : Store)) ∧
    lookup? (computeUpdatedDisplayValues miniJS [] [((0, 0), "5")] []) (0, 0) = none ∧
    lookup? ([((0, 0), "5")] : Memo) (0, 0) = some "5" := by
  refine ⟨?_, by decide, by decide, by decide⟩
  intro k h
  have noEdge : ∀ p q : Key, ¬ FormulaRefersTo ([] : Store) p q := by
    rintro p q ⟨c, hc, -⟩
    cases hc
  cases h with
  | single e => exact noEdge _ _ e
  | tail _ e => exact noEdge _ _ e

/-- C2 witness: the amended theorem applied to a concrete acyclic one-cell
store, a changed key, and a previous map holding an unaffected key. -/
theorem C2_selective_agrees_full_witness :
    lookup? (computeUpdatedDisplayValues miniJS [((0, 0), ⟨0, 0, "7"⟩)] [((5, 5), "x")]
        [(0, 0)]) (0, 0) =
      some (displayOf (computeAllDisplayValues miniJS [((0, 0), ⟨0, 0, "7"⟩)]) (0, 0)) ∧
    lookup? (computeUpdatedDisplayValues miniJS [((0, 0), ⟨0, 0, "7"⟩)] [((5, 5), "x")]
        [(0, 0)]) (5, 5) = lookup? ([((5, 5), "x")] : Memo) (5, 5) := by
  have hnc : NoCircularRefs [((0, 0), ⟨0, 0, "7"⟩)] := by
    intro k hreach
    have noEdge : ∀ p q : Key, ¬ FormulaRefersTo [((0, 0), ⟨0, 0, "7"⟩)] p q := by
      rintro p q ⟨c, h, hb⟩
      by_cases ha : ((0, 0) : Key) = p
      · subst ha
        have hc : c = ⟨0, 0, "7"⟩ := by
          unfold lookup? at h
          simp at h
          exact h.symm
        subst hc
        have hrk : refKeysOf ⟨0, 0, "7"⟩ = ([] : List Key) := by decide
        rw [hrk] at hb
        cases hb
      · unfold lookup? at h
        rw [if_neg ha] at h
        cases h
    cases hreach with
    | single e => exact noEdge _ _ e
    | tail _ e => exact noEdge _ _ e
  have h := C2_selective_agrees_full miniJS [((0, 0), ⟨0, 0, "7"⟩)] [((5, 5), "x")]
    [(0, 0)] hnc (by decide)
  exact ⟨h.1 (0, 0) (by decide), h.2 (5, 5) (by decide)⟩

/-! ## Claim C9: the bidirectional dependency-graph invariant -/

/-- Membership after a JS `Set.add`. -/
theorem mem_setAdd (l : List Key) (v b : Key) : b ∈ setAdd l v ↔ b ∈ l ∨ b = v := by
  unfold setAdd
  by_cases hv : v ∈ l
  · rw [if_pos hv]
    constructor
    · exact Or.inl
    · rintro (h | rfl)
      · exact h
      · exact hv
  · rw [if_neg hv]
    simp

/-- Reading an adjacency map after `mapAdd`. -/
theorem lookupSet_mapAdd (m : List (Key × List Key)) (k v k' : Key) :
    lookupSet (mapAdd m k v) k' =
      if k = k' then setAdd (lookupSet m k') v else lookupSet m k' := by
  induction m with
  | nil =>
    by_cases hk : k = k'
    · subst hk
      simp [mapAdd, lookupSet, lookup?, setAdd]
    · simp [mapAdd, lookupSet, lookup?, hk]
  | cons e rest ih =>
    obtain ⟨k₀, l⟩ := e
    by_cases h0 : k₀ = k
    · subst h0
      simp only [mapAdd, if_pos rfl]
      by_cases hk : k₀ = k'
      · subst hk
        simp [lookupSet, lookup?]
      · simp [lookupSet, lookup?, hk]
    · simp only [mapAdd, if_neg h0]
      by_cases hk : k₀ = k'
      · subst hk
        have hkk : ¬ k = k₀ := fun h => h0 h.symm
        simp [lookupSet, lookup?, hkk]
      · simp only [lookupSet, lookup?, if_neg hk]
        exact ih

/-- The init maps of the graph builder read as empty sets everywhere. -/
theorem lookupSet_init (ks : List Key) (a : Key) :
    lookupSet (ks.map (fun k => (k, ([] : List Key)))) a = [] := by
  induction ks with
  | nil => rfl
  | cons k rest ih =>
    by_cases hk : k = a
    · simp [lookupSet, lookup?, hk]
    · simp only [List.map_cons, lookupSet, lookup?, if_neg hk]
      exact ih

/-- Characterization of the inner fold of the graph builder (recording the
resolved references of one formula cell in both directions). -/
theorem build_inner (k : Key) :
    ∀ (rks : List Key) (g : DepGraph) (a b : Key),
      (b ∈ lookupSet ((rks.foldl (fun g refKey =>
          (⟨mapAdd g.dependents refKey k, mapAdd g.dependencies k refKey⟩ : DepGraph))
          g).dependencies) a ↔
        b ∈ lookupSet g.dependencies a ∨ (a = k ∧ b ∈ rks)) ∧
      (a ∈ lookupSet ((rks.foldl (fun g refKey =>
          (⟨mapAdd g.dependents refKey k, mapAdd g.dependencies k refKey⟩ : DepGraph))
          g).dependents) b ↔
        a ∈ lookupSet g.dependents b ∨ (a = k ∧ b ∈ rks)) := by
  intro rks
  induction rks with
  | nil => intro g a b; simp
  | cons r rest ih =>
    intro g a b
    simp only [List.foldl_cons]
    obtain ⟨ihdeps, ihdpts⟩ :=
      ih ⟨mapAdd g.dependents r k, mapAdd g.dependencies k r⟩ a b
    constructor
    · rw [ihdeps]
      show b ∈ lookupSet (mapAdd g.dependencies k r) a ∨ _ ↔ _
      rw [lookupSet_mapAdd]
      by_cases hak : k = a
      · subst hak
        rw [if_pos rfl, mem_setAdd]
        constructor
        · rintro ((h | rfl) | ⟨-, h⟩)
          · exact Or.inl h
          · exact Or.inr ⟨rfl, List.mem_cons_self _ _⟩
          · exact Or.inr ⟨rfl, List.mem_cons_of_mem _ h⟩
        · rintro (h | ⟨-, h⟩)
          · exact Or.inl (Or.inl h)
          · rcases List.mem_cons.mp h with rfl | h'
            · exact Or.inl (Or.inr rfl)
            · exact Or.inr ⟨rfl, h'⟩
      · rw [if_neg hak]
        have hak' : ¬ a = k := fun h => hak h.symm
        constructor
        · rintro (h | ⟨rfl, h⟩)
          · exact Or.inl h
          · exact absurd rfl hak'
        · rintro (h | ⟨rfl, h⟩)
          · exact Or.inl h
          · exact absurd rfl hak'
    · rw [ihdpts]
      show a ∈ lookupSet (mapAdd g.dependents r k) b ∨ _ ↔ _
      rw [lookupSet_mapAdd]
      by_cases hrb : r = b
      · subst hrb
        rw [if_pos rfl, mem_setAdd]
        constructor
        · rintro ((h | rfl) | ⟨rfl, h⟩)
          · exact Or.inl h
          · exact Or.inr ⟨rfl, List.mem_cons_self _ _⟩
          · exact Or.inr ⟨rfl, List.mem_cons_self _ _⟩
        · rintro (h | ⟨rfl, h⟩)
          · exact Or.inl (Or.inl h)
          · exact Or.inl (Or.inr rfl)
      · rw [if_neg hrb]
        constructor
        · rintro (h | ⟨rfl, h⟩)
          · exact Or.inl h
          · exact Or.inr ⟨rfl, List.mem_cons_of_mem _ h⟩
        · rintro (h | ⟨rfl, h⟩)
          · exact Or.inl h
          · rcases List.mem_cons.mp h with rfl | h'
            · exact absurd rfl hrb
            · exact Or.inr ⟨rfl, h'⟩

/-- Characterization of the outer fold of the graph builder. -/
theorem build_outer :
    ∀ (entries : List (Key × Cell)) (g : DepGraph) (a b : Key),
      (b ∈ lookupSet ((entries.foldl (fun g entry =>
          (refKeysOf entry.2).foldl (fun g refKey =>
            (⟨mapAdd g.dependents refKey entry.1,
              mapAdd g.dependencies entry.1 refKey⟩ : DepGraph)) g) g).dependencies) a ↔
        b ∈ lookupSet g.dependencies a ∨ ∃ c, (a, c) ∈ entries ∧ b ∈ refKeysOf c) ∧
      (a ∈ lookupSet ((entries.foldl (fun g entry =>
          (refKeysOf entry.2).foldl (fun g refKey =>
            (⟨mapAdd g.dependents refKey entry.1,
              mapAdd g.dependencies entry.1 refKey⟩ : DepGraph)) g) g).dependents) b ↔
        a ∈ lookupSet g.dependents b ∨ ∃ c, (a, c) ∈ entries ∧ b ∈ refKeysOf c) := by
  intro entries
  induction entries with
  | nil => intro g a b; simp
  | cons e rest ih =>
    intro g a b
    obtain ⟨key, cell⟩ := e
    simp only [List.foldl_cons]
    obtain ⟨ihdeps, ihdpts⟩ := ih ((refKeysOf cell).foldl (fun g refKey =>
      (⟨mapAdd g.dependents refKey key, mapAdd g.dependencies key refKey⟩ : DepGraph)) g) a b
    obtain ⟨indeps, indpts⟩ := build_inner key (refKeysOf cell) g a b
    have hsplit : ∀ P : Prop,
        (P ∨ (a = key ∧ b ∈ refKeysOf cell)) ∨ (∃ c, (a, c) ∈ rest ∧ b ∈ refKeysOf c) ↔
        P ∨ ∃ c, (a, c) ∈ (key, cell) :: rest ∧ b ∈ refKeysOf c := by
      intro P
      constructor
      · rintro ((h | ⟨rfl, h⟩) | ⟨c, hc, hb⟩)
        · exact Or.inl h
        · exact Or.inr ⟨cell, List.mem_cons_self _ _, h⟩
        · exact Or.inr ⟨c, List.mem_cons_of_mem _ hc, hb⟩
      · rintro (h | ⟨c, hc, hb⟩)
        · exact Or.inl (Or.inl h)
        · rcases List.mem_cons.mp hc with hec | h'
          · obtain ⟨h1, h2⟩ := Prod.mk.injEq .. ▸ hec
            subst h1
            subst h2
            exact Or.inl (Or.inr ⟨rfl, hb⟩)
          · exact Or.inr ⟨c, h', hb⟩
    exact ⟨by rw [ihdeps, indeps]; exact hsplit _,
           by rw [ihdpts, indpts]; exact hsplit _⟩

/-- The graph builder as an explicit fold (let-bindings unfolded). -/
theorem buildDependencyGraph_eq (cells : Store) :
    buildDependencyGraph cells =
      cells.foldl (fun g entry =>
        (refKeysOf entry.2).foldl (fun g refKey =>
          (⟨mapAdd g.dependents refKey entry.1,
            mapAdd g.dependencies entry.1 refKey⟩ : DepGraph)) g)
        ⟨(keysOf cells).map (fun k => (k, [])), (keysOf cells).map (fun k => (k, []))⟩ := rfl

/-- C9: the bidirectional edge invariant of `buildDependencyGraph`: for a
store with duplicate-free keys (every JS object), `b ∈ dependencies[a]` iff
`a ∈ dependents[b]` iff cell `a`'s content is a formula containing an A1
token that the codec resolves to key `b`, with missing entries read as empty
sets. -/
theorem C9_dependency_graph_invariant (cells : Store)
    (hnd : (keysOf cells).Nodup) (a b : Key) :
    (b ∈ lookupSet (buildDependencyGraph cells).dependencies a ↔
      FormulaRefersTo cells a b) ∧
    (a ∈ lookupSet (buildDependencyGraph cells).dependents b ↔
      FormulaRefersTo cells a b) ∧
    (b ∈ lookupSet (buildDependencyGraph cells).dependencies a ↔
      a ∈ lookupSet (buildDependencyGraph cells).dependents b) := by
  obtain ⟨hdeps, hdpts⟩ := build_outer cells
    ⟨(keysOf cells).map (fun k => (k, [])), (keysOf cells).map (fun k => (k, []))⟩ a b
  have hmemiff : (∃ c, (a, c) ∈ cells ∧ b ∈ refKeysOf c) ↔ FormulaRefersTo cells a b := by
    constructor
    · rintro ⟨c, hc, hb⟩
      exact ⟨c, lookup?_eq_of_nodup hnd hc, hb⟩
    · rintro ⟨c, hc, hb⟩
      exact ⟨c, lookup?_mem hc, hb⟩
  have hdeps' : b ∈ lookupSet (buildDependencyGraph cells).dependencies a ↔
      FormulaRefersTo cells a b := by
    rw [buildDependencyGraph_eq, hdeps, lookupSet_init]
    simp only [List.not_mem_nil, false_or]
    exact hmemiff
  have hdpts' : a ∈ lookupSet (buildDependencyGraph cells).dependents b ↔
      FormulaRefersTo cells a b := by
    rw [buildDependencyGraph_eq, hdpts, lookupSet_init]
    simp only [List.not_mem_nil, false_or]
    exact hmemiff
  exact ⟨hdeps', hdpts', by rw [hdeps', hdpts']⟩

/-- C9 witness: the invariant at the concrete store `{A1: "=B1"}`, between
A1's key and B1's key (an edge) and between A1's key and itself (no edge). -/
theorem C9_dependency_graph_invariant_witness :
    ((-13, 15) ∈ lookupSet
        (buildDependencyGraph [((-14, 15), ⟨-14, 15, "=B1"⟩)]).dependencies (-14, 15) ↔
      FormulaRefersTo [((-14, 15), ⟨-14, 15, "=B1"⟩)] (-14, 15) (-13, 15)) ∧
    ((-14, 15) ∈ lookupSet
        (buildDependencyGraph [((-14, 15), ⟨-14, 15, "=B1"⟩)]).dependents (-13, 15) ↔
      FormulaRefersTo [((-14, 15), ⟨-14, 15, "=B1"⟩)] (-14, 15) (-13, 15)) :=
  ⟨(C9_dependency_graph_invariant [((-14, 15), ⟨-14, 15, "=B1"⟩)] (by decide)
      (-14, 15) (-13, 15)).1,
   (C9_dependency_graph_invariant [((-14, 15), ⟨-14, 15, "=B1"⟩)] (by decide)
      (-14, 15) (-13, 15)).2.1⟩

end Napkin
